import Mathlib

/-!
Verification of the starlight hidden-class ("structure") transition system and
the GC cell header, shallowly embedded from
crates/starlight/src/runtime/structure.rs and crates/starlight/src/heap/cell.rs.

Managed references (Gc<T>) are modelled as addresses into an explicit heap of
structure records and of property tables, because structure operations mutate
through those references (transition-store inserts on the parent, table edits
through possibly shared Gc<TargetTable> pointers).  Ancillary heap data whose
aliasing is unobservable through the verified API is inlined:
the per-structure transition store table (allocated fresh inside
TransitionsTable::insert and never shared), and the DeletedEntry chain (nodes
are immutable after creation, so a copied holder is a persistent list).
Rust panics and unwraps of absent values (and nontermination of the
previous-chain walk, impossible on well-formed heaps) are modelled by Option.
-/

set_option maxHeartbeats 1000000

namespace Starlight

/-! ### Association lists standing in for HashMap -/

def alGet {κ α : Type} [DecidableEq κ] : List (κ × α) → κ → Option α
  | [], _ => none
  | (k, v) :: rest, k0 => if k = k0 then some v else alGet rest k0

/-- HashMap::insert: replace the value at a present key, otherwise add the entry. -/
def alUpd {κ α : Type} [DecidableEq κ] : List (κ × α) → κ → α → List (κ × α)
  | [], k0, v0 => [(k0, v0)]
  | (k, v) :: rest, k0, v0 =>
    if k = k0 then (k0, v0) :: rest else (k, v) :: alUpd rest k0 v0

/-- HashMap::remove: drop the entry at the key. -/
def alDel {κ α : Type} [DecidableEq κ] : List (κ × α) → κ → List (κ × α)
  | [], _ => []
  | (k, v) :: rest, k0 => if k = k0 then rest else (k, v) :: alDel rest k0

/-! ### Symbols and attributes

Symbol and AttrSafe live in crates not shipped under src/.  Modelled from the
spec: a Symbol is totally ordered and hashable with a DUMMY sentinel, and
AttrSafe is an opaque 32-bit word with total equality, a raw() accessor and a
bit-exact not_found() sentinel. -/

abbrev Symbol := Nat

/-- Modelled from the spec: the DUMMY sentinel symbol used as the no-delta marker. -/
def DUMMY_SYMBOL : Symbol := 0

/-- Modelled from the spec: AttrSafe, an opaque 32-bit attribute word. -/
structure AttrSafe where
  raw : Nat
deriving DecidableEq

/-- Modelled from the spec: the distinguished not-found attribute word. -/
def AttrSafe.not_found : AttrSafe := ⟨4294967295⟩

def AttrSafe.is_not_found (a : AttrSafe) : Bool := a = AttrSafe.not_found

/-! ### MapEntry (structure.rs lines 54-71) -/

structure MapEntry where
  offset : Nat
  attrs : AttrSafe
deriving DecidableEq

def MapEntry.not_found : MapEntry :=
  { offset := 4294967295, attrs := AttrSafe.not_found }

def MapEntry.is_not_found (e : MapEntry) : Bool := e.attrs.is_not_found

/-! ### Transition store (structure.rs lines 87-199, the TransitionsTable used
by Structure).  The Gc<Table> allocated inside insert is never shared between
stores, so its contents are inlined into the variant. -/

structure TransitionKey where
  name : Symbol
  attrs : Nat
deriving DecidableEq

inductive Transition where
  | none
  | table (t : List (TransitionKey × Option Nat))
  | pair (k : TransitionKey) (m : Option Nat)
deriving DecidableEq

structure TransitionsTable where
  var : Transition
  enabled : Bool
  unique : Bool
  indexed : Bool
deriving DecidableEq

def TransitionsTable.new (enabled indexed : Bool) : TransitionsTable :=
  { var := Transition.none, unique := false, indexed := indexed, enabled := enabled }

def TransitionsTable.is_enabled_unique_transition (t : TransitionsTable) : Bool :=
  t.unique

def TransitionsTable.insert (tt : TransitionsTable) (name : Symbol) (attrs : AttrSafe)
    (map : Nat) : TransitionsTable :=
  let key : TransitionKey := { name := name, attrs := attrs.raw }
  let tt1 :=
    match tt.var with
    | Transition.pair x y => { tt with var := Transition.table [(x, y)] }
    | _ => tt
  match tt1.var with
  | Transition.table t => { tt1 with var := Transition.table (alUpd t key (some map)) }
  | _ => { tt1 with var := Transition.pair key (some map) }

def TransitionsTable.find (tt : TransitionsTable) (name : Symbol) (attrs : AttrSafe) :
    Option Nat :=
  let key : TransitionKey := { name := name, attrs := attrs.raw }
  match tt.var with
  | Transition.table t =>
    match alGet t key with
    | some m => m
    | Option.none => none
  | Transition.pair k m => if k = key then m else none
  | Transition.none => none

/-! ### Deleted-slot stack (structure.rs lines 347-403).  DeletedEntry nodes are
immutable once allocated, so the heap chain is inlined as a list (newest
first).  Note that the source push does NOT increment the cached size. -/

structure DeletedEntryHolder where
  entry : List Nat
  size : Nat
deriving DecidableEq

def DeletedEntryHolder.push (d : DeletedEntryHolder) (offset : Nat) : DeletedEntryHolder :=
  { d with entry := offset :: d.entry }

/-- pop: unchecked head plus u32-wrapping size decrement. -/
def DeletedEntryHolder.pop (d : DeletedEntryHolder) : Nat × DeletedEntryHolder :=
  (d.entry.headD 0,
   { d with entry := d.entry.tail, size := (d.size + 4294967295) % 4294967296 })

def DeletedEntryHolder.empty (d : DeletedEntryHolder) : Bool := d.size = 0

/-! ### Structure and the heap -/

abbrev TargetTable := List (Symbol × MapEntry)

structure Structure where
  id : Nat
  transitions : TransitionsTable
  table : Option Nat
  deleted : DeletedEntryHolder
  added : Symbol × MapEntry
  previous : Option Nat
  prototype : Option Nat
  calculated_size : Nat
  transit_count : Nat
deriving DecidableEq

/-- The GC heap restricted to what the structure subsystem allocates: structure
records and Gc<TargetTable> property tables, at monotonically fresh addresses
(the collector is non-moving). -/
structure Heap where
  structs : List (Nat × Structure)
  tables : List (Nat × TargetTable)
  nextS : Nat
  nextT : Nat
deriving DecidableEq

def emptyHeap : Heap := { structs := [], tables := [], nextS := 0, nextT := 0 }

def Heap.getS (h : Heap) (a : Nat) : Option Structure := alGet h.structs a

def Heap.setS (h : Heap) (a : Nat) (s : Structure) : Heap :=
  { h with structs := alUpd h.structs a s }

def Heap.allocS (h : Heap) (s : Structure) : Heap × Nat :=
  ({ h with structs := (h.nextS, s) :: h.structs, nextS := h.nextS + 1 }, h.nextS)

def Heap.getT (h : Heap) (t : Nat) : Option TargetTable := alGet h.tables t

def Heap.setT (h : Heap) (t : Nat) (tbl : TargetTable) : Heap :=
  { h with tables := alUpd h.tables t tbl }

def Heap.allocT (h : Heap) (tbl : TargetTable) : Heap × Nat :=
  ({ h with tables := (h.nextT, tbl) :: h.tables, nextT := h.nextT + 1 }, h.nextT)

/-- Addresses stored in the heap stay below the allocation cursors (true of any
heap built by the allocator; used to know fresh addresses are really fresh). -/
def Heap.wf (h : Heap) : Prop :=
  (∀ p ∈ h.structs, p.1 < h.nextS ∧
     (∀ t, p.2.table = some t → t < h.nextT) ∧
     (∀ q, p.2.previous = some q → q < h.nextS)) ∧
  (∀ p ∈ h.tables, p.1 < h.nextT)

instance (h : Heap) : Decidable h.wf := by
  unfold Heap.wf; infer_instance

/-! ### Structure methods (structure.rs lines 405-654) -/

def Structure.is_unique (s : Structure) : Bool := !s.transitions.enabled

def Structure.is_adding_map (s : Structure) : Bool := s.added.1 ≠ DUMMY_SYMBOL

def Structure.has_table (s : Structure) : Bool := s.table.isSome

/-- get_slots_size (lines 499-505): table length plus deleted size when a table
is present, otherwise the cached calculated_size. -/
def slotsSize (h : Heap) (s : Structure) : Nat :=
  match s.table with
  | some t => ((h.getT t).getD []).length + s.deleted.size
  | none => s.calculated_size

/-- ctor (lines 506-531): derive a successor of previous; the table Gc pointer
is inherited (shared!) exactly when both the new map and previous are unique. -/
def Structure.ctor (h : Heap) (prevA : Nat) (unique : Bool) : Option (Heap × Nat) :=
  match h.getS prevA with
  | none => none
  | some prev =>
    let s0 : Structure :=
      { prototype := prev.prototype
        previous := some prevA
        table := if unique && prev.is_unique then prev.table else none
        transitions := TransitionsTable.new (!unique) prev.transitions.indexed
        deleted := prev.deleted
        added := (DUMMY_SYMBOL, { offset := 4294967295, attrs := AttrSafe.not_found })
        id := 0
        calculated_size := 0
        transit_count := 0 }
    let ha := h.allocS s0
    let s1 := { s0 with calculated_size := slotsSize ha.1 s0 }
    some (ha.1.setS ha.2 s1, ha.2)

/-- ctor1 (lines 533-559): a fresh root structure. -/
def Structure.ctor1 (h : Heap) (prototype : Option Nat) (unique indexed : Bool) :
    Heap × Nat :=
  h.allocS
    { prototype := prototype
      previous := none
      table := none
      transitions := TransitionsTable.new (!unique) indexed
      deleted := { entry := [], size := 0 }
      added := (DUMMY_SYMBOL, { offset := 4294967295, attrs := AttrSafe.not_found })
      id := 0
      calculated_size := 0
      transit_count := 0 }

/-- ctor2 (lines 560-572): root with a given (possibly absent) table pointer. -/
def Structure.ctor2 (h : Heap) (table : Option Nat) (prototype : Option Nat)
    (unique indexed : Bool) : Heap × Nat :=
  let ha := Structure.ctor1 h prototype unique indexed
  match ha.1.getS ha.2 with
  | none => ha
  | some s0 =>
    let s1 := { s0 with table := table }
    let s2 := { s1 with calculated_size := slotsSize ha.1 s1 }
    (ha.1.setS ha.2 s2, ha.2)

def Structure.new (h : Heap) (previous : Nat) : Option (Heap × Nat) :=
  Structure.ctor h previous false

def Structure.new_unique (h : Heap) (previous : Nat) : Option (Heap × Nat) :=
  Structure.ctor h previous true

/-- new_from_table (lines 618-632): allocate the given table and build a root over it. -/
def Structure.new_from_table (h : Heap) (table : Option TargetTable)
    (prototype : Option Nat) (unique indexed : Bool) : Heap × Nat :=
  match table with
  | some tbl =>
    let ht := h.allocT tbl
    Structure.ctor2 ht.1 (some ht.2) prototype unique indexed
  | none => Structure.ctor2 h none prototype unique indexed

/-- new_indexed (lines 633-639): a fresh shared root. -/
def Structure.new_indexed (h : Heap) (prototype : Option Nat) (indexed : Bool) :
    Heap × Nat :=
  Structure.ctor1 h prototype false indexed

/-! ### Table materialisation (allocate_table, lines 428-464)

The walk starts at self.previous, pushing every adding-map structure met before
the first table-bearing ancestor (self itself is pushed first when it is an
adding map); the base is a clone of that ancestor table, or fresh when the walk
ends at a root.  The Vec of pushed structures is then iterated in push order,
i.e. the NEWEST delta is inserted first.  The loop in the source has no fuel;
a cycle in previous links (impossible on heaps the allocator builds) would
diverge, which the model maps to none by bounding the walk by the number of
structures ever allocated. -/

def allocWalk (h : Heap) : Nat → Option Nat → List Nat → Option (List Nat × TargetTable)
  | _, none, acc => some (acc, [])
  | 0, some _, _ => none
  | fuel + 1, some cur, acc =>
    match h.getS cur with
    | none => none
    | some cs =>
      match cs.table with
      | some t => some (acc, (h.getT t).getD [])
      | none =>
        allocWalk h fuel cs.previous (if cs.is_adding_map then acc ++ [cur] else acc)

def foldInserts (h : Heap) : List Nat → TargetTable → Option TargetTable
  | [], t => some t
  | b :: rest, t =>
    match h.getS b with
    | none => none
    | some sb => foldInserts h rest (alUpd t sb.added.1 sb.added.2)

def Structure.allocate_table (h : Heap) (a : Nat) : Option Heap :=
  match h.getS a with
  | none => none
  | some s =>
    let acc0 := if s.is_adding_map then [a] else []
    match allocWalk h (h.nextS + 1) s.previous acc0 with
    | none => none
    | some sb =>
      match foldInserts h sb.1 sb.2 with
      | none => none
      | some tbl =>
        let ht := h.allocT tbl
        some (ht.1.setS a { s with table := some ht.2, previous := none })

/-- The fully materialised view of the structure at a: its table if present,
otherwise the walk-and-replay result that allocate_table would store for a
successor whose chain starts at a. -/
def matView (h : Heap) (a : Nat) : Option TargetTable :=
  match allocWalk h (h.nextS + 1) (some a) [] with
  | none => none
  | some sb => foldInserts h sb.1 sb.2

/-! ### The transition protocol (structure.rs lines 656-886) -/

/-- delete (lines 406-409): remove the entry through the table Gc pointer and
push its offset onto the deleted stack (which does not bump size). -/
def Structure.del (h : Heap) (a : Nat) (name : Symbol) : Option Heap :=
  match h.getS a with
  | none => none
  | some s =>
    match s.table with
    | none => none
    | some tA =>
      let tbl := (h.getT tA).getD []
      match alGet tbl name with
      | none => none
      | some it =>
        let h1 := h.setT tA (alDel tbl name)
        some (h1.setS a { s with deleted := s.deleted.push it.offset })

/-- delete_property_transition (lines 657-671). -/
def delete_property_transition (h : Heap) (a : Nat) (name : Symbol) :
    Option (Heap × Nat) :=
  match Structure.new_unique h a with
  | none => none
  | some hm =>
    let h1 := hm.1
    let mA := hm.2
    match h1.getS mA with
    | none => none
    | some m =>
      match (if m.has_table then some h1 else Structure.allocate_table h1 mA) with
      | none => none
      | some h2 =>
        match Structure.del h2 mA name with
        | none => none
        | some h3 => some (h3, mA)

/-- change_extensible_transition (lines 720-722): unconditionally a fresh
unique successor. -/
def change_extensible_transition (h : Heap) (a : Nat) : Option (Heap × Nat) :=
  Structure.new_unique h a

/-- The unique path of add_property_transition (lines 774-796): materialise if
needed, fork only when enabled_unique_transition is set, take a recycled offset
when the deleted stack reports non-empty else the current slots_size of self,
and insert through the table Gc pointer of the chosen map. -/
def addUnique (h : Heap) (selfA : Nat) (name : Symbol) (attributes : AttrSafe) :
    Option (Heap × Nat × Nat) :=
  match h.getS selfA with
  | none => none
  | some s =>
    match (if s.has_table then some h else Structure.allocate_table h selfA) with
    | none => none
    | some h1 =>
      match h1.getS selfA with
      | none => none
      | some s1 =>
        match (if s1.transitions.is_enabled_unique_transition then
                 Structure.new_unique h1 selfA
               else some (h1, selfA)) with
        | none => none
        | some hm =>
          let h2 := hm.1
          let mA := hm.2
          match h2.getS mA with
          | none => none
          | some m =>
            let step : Nat × Heap :=
              if !m.deleted.empty then
                let od := m.deleted.pop
                (od.1, h2.setS mA { m with deleted := od.2 })
              else
                (match h2.getS selfA with
                 | some sf => slotsSize h2 sf
                 | none => 0, h2)
            let h3 := step.2
            match h3.getS mA with
            | none => none
            | some m2 =>
              match m2.table with
              | none => none
              | some tA =>
                let entry : MapEntry := { offset := step.1, attrs := attributes }
                let h4 := h3.setT tA (alUpd ((h3.getT tA).getD []) name entry)
                some (h4, mA, step.1)

/-- add_property_transition (lines 762-844).  The recursive call on the escape
path lands in the unique path of the freshly forked unique successor, so it is
inlined as addUnique. -/
def add_property_transition (h : Heap) (selfA : Nat) (name : Symbol)
    (attributes : AttrSafe) : Option (Heap × Nat × Nat) :=
  match h.getS selfA with
  | none => none
  | some s =>
    if s.is_unique then addUnique h selfA name attributes
    else
      match s.transitions.find name attributes with
      | some mA =>
        match h.getS mA with
        | none => none
        | some m => some (h, mA, m.added.2.offset)
      | none =>
        if s.transit_count > 32 then
          match Structure.new_unique h selfA with
          | none => none
          | some hm => addUnique hm.1 hm.2 name attributes
        else
          match Structure.new h selfA with
          | none => none
          | some hm =>
            let h1 := hm.1
            let mA := hm.2
            match h1.getS mA, h1.getS selfA with
            | some m, some s1 =>
              let m2 :=
                if !m.deleted.empty then
                  let od := m.deleted.pop
                  { m with deleted := od.2,
                           added := (name, { offset := od.1, attrs := attributes }),
                           calculated_size := slotsSize h1 s1 }
                else
                  { m with added := (name, { offset := slotsSize h1 s1, attrs := attributes }),
                           calculated_size := slotsSize h1 s1 + 1 }
              let m3 := { m2 with transit_count := m2.transit_count + 1 }
              let h2 := h1.setS mA m3
              let s2 := { s1 with transitions := s1.transitions.insert name attributes mA }
              let h3 := h2.setS selfA s2
              if slotsSize h3 m3 > m3.added.2.offset then some (h3, mA, m3.added.2.offset)
              else none
            | _, _ => none

/-- get (lines 846-861). -/
def Structure.get (h : Heap) (a : Nat) (name : Symbol) : Option (Heap × MapEntry) :=
  match h.getS a with
  | none => none
  | some s =>
    let probe : Heap → Option (Heap × MapEntry) := fun h1 =>
      match h1.getS a with
      | none => none
      | some s1 =>
        match s1.table with
        | none => none
        | some tA =>
          some (h1, (alGet ((h1.getT tA).getD []) name).getD MapEntry.not_found)
    if !s.has_table then
      if s.previous.isNone then some (h, MapEntry.not_found)
      else if s.is_adding_map && s.added.1 = name then some (h, s.added.2)
      else
        match Structure.allocate_table h a with
        | none => none
        | some h1 => probe h1
    else probe h

/-! ### Capacity policy (storage_capacity, lines 863-881) -/

def clp2 (number : Nat) : Nat :=
  let x := number - 1
  let x := x ||| (x >>> 1)
  let x := x ||| (x >>> 2)
  let x := x ||| (x >>> 4)
  let x := x ||| (x >>> 8)
  let x := x ||| (x >>> 16)
  x + 1

/-- The or-shift cascade of clp2 on its own (clp2 number = smearBits (number - 1) + 1). -/
def smearBits (x : Nat) : Nat :=
  let x := x ||| (x >>> 1)
  let x := x ||| (x >>> 2)
  let x := x ||| (x >>> 4)
  let x := x ||| (x >>> 8)
  let x := x ||| (x >>> 16)
  x

def storage_capacity (h : Heap) (s : Structure) : Nat :=
  let sz := slotsSize h s
  if sz = 0 then 0
  else if sz < 8 then 8
  else clp2 sz

/-! ### Cell header (heap/cell.rs lines 18-23 and 114-214) -/

def GC_DEAD : Nat := 4
def GC_WHITE : Nat := 0
def GC_BLACK : Nat := 1
def GC_GRAY : Nat := 2

/-- The 64-bit variant without the tag-field feature: the color tag is packed
into the low bits of the discriminator word (cell.rs lines 178-195). -/
structure Header64 where
  ty : Nat
deriving DecidableEq

/-- The usize complement of 0x03 on a 64-bit target. -/
def usizeNot3 : Nat := 2 ^ 64 - 4

def Header64.vtable (hd : Header64) : Nat := hd.ty &&& usizeNot3

def Header64.tag (hd : Header64) : Nat := hd.ty &&& 3

def Header64.set_vtable (hd : Header64) (vtable : Nat) : Header64 :=
  { ty := vtable ||| hd.tag }

def Header64.set_tag (hd : Header64) (tag : Nat) : Header64 :=
  { ty := hd.vtable ||| tag }

/-- The 32-bit / tag-field variant: the tag lives in its own byte
(cell.rs lines 197-214). -/
structure HeaderTagField where
  ty : Nat
  tagF : Nat
deriving DecidableEq

def HeaderTagField.vtable (hd : HeaderTagField) : Nat := hd.ty

def HeaderTagField.tag (hd : HeaderTagField) : Nat := hd.tagF

def HeaderTagField.set_vtable (hd : HeaderTagField) (vtable : Nat) : HeaderTagField :=
  { hd with ty := vtable }

def HeaderTagField.set_tag (hd : HeaderTagField) (tag : Nat) : HeaderTagField :=
  { hd with tagF := tag }

/-- Default data attributes used by the concrete scenarios. -/
def defaultDataAttrs : AttrSafe := ⟨0⟩

/-! ### Concrete scenario pipelines (used by the closed theorems below) -/

def addAddr (r : Option (Heap × Nat × Nat)) : Option Nat := r.map (fun p => p.2.1)

def addOffset (r : Option (Heap × Nat × Nat)) : Option Nat := r.map (fun p => p.2.2)

def addHeap (r : Option (Heap × Nat × Nat)) : Option Heap := r.map Prod.fst

/-- The empty shared root R allocated in the empty heap (address 0). -/
def rootH : Heap := (Structure.ctor1 emptyHeap none false false).1

def rootA : Nat := (Structure.ctor1 emptyHeap none false false).2

/-- Sequential adds of distinct fresh properties, threading each returned
structure into the next call. -/
def addN (h : Heap) (a : Nat) : List Symbol → Option (Heap × Nat)
  | [] => some (h, a)
  | n :: rest =>
    match add_property_transition h a n defaultDataAttrs with
    | some p => addN p.1 p.2.1 rest
    | none => none

/-- 33 sequential adds of the distinct names 1..33 starting from R. -/
def c1run : Option (Heap × Nat) := addN rootH rootA (List.range' 1 33)

def c4S1 : Option (Heap × Nat × Nat) := add_property_transition rootH rootA 1 defaultDataAttrs

def c4S2 : Option (Heap × Nat × Nat) :=
  c4S1.bind (fun p => add_property_transition p.1 p.2.1 2 defaultDataAttrs)

/-- The second object replays add x from R in the heap where S1, S2 already exist. -/
def c4R1 : Option (Heap × Nat × Nat) :=
  c4S2.bind (fun p => add_property_transition p.1 rootA 1 defaultDataAttrs)

def c4R2 : Option (Heap × Nat × Nat) :=
  c4R1.bind (fun p => add_property_transition p.1 p.2.1 2 defaultDataAttrs)

/-- Delete x on S2 (claim C2 scenario). -/
def c2U1 : Option (Heap × Nat) :=
  c4S2.bind (fun p => delete_property_transition p.1 p.2.1 1)

/-- Add z on the structure returned by the delete. -/
def c2Z : Option (Heap × Nat × Nat) :=
  c2U1.bind (fun p => add_property_transition p.1 p.2 3 defaultDataAttrs)

/-- Chain that adds the same symbol 1 twice with different attributes, then a
fresh symbol 2: the previous chain carries two deltas for symbol 1. -/
def c5s1 : Option (Heap × Nat × Nat) := add_property_transition rootH rootA 1 ⟨5⟩

def c5s2 : Option (Heap × Nat × Nat) :=
  c5s1.bind (fun p => add_property_transition p.1 p.2.1 1 ⟨6⟩)

def c5s3 : Option (Heap × Nat × Nat) :=
  c5s2.bind (fun p => add_property_transition p.1 p.2.1 2 ⟨5⟩)

/-- Lookup of symbol 1 on s2 through the added fast path (no table yet). -/
def c5fast : Option MapEntry :=
  c5s3.bind (fun p =>
    c5s2.bind (fun q => (Structure.get p.1 q.2.1 1).map Prod.snd))

/-- Lookup of symbol 1 on s3, which materialises the chain into a table. -/
def c5mat : Option (Heap × MapEntry) :=
  c5s3.bind (fun p => Structure.get p.1 p.2.1 1)

/-- Round trip on the same chain: add fresh symbol 2 to s2 (giving s3), then
delete it again. -/
def c9del : Option (Heap × Nat) :=
  c5s3.bind (fun p => delete_property_transition p.1 p.2.1 2)

/-- A unique structure holding symbol 1 at offset 0, built over its own table. -/
def c3uH : Heap × Nat :=
  Structure.new_from_table emptyHeap (some [(1, { offset := 0, attrs := defaultDataAttrs })])
    none true false

def c3del : Option (Heap × Nat) := delete_property_transition c3uH.1 c3uH.2 1

/-- A table-less structure with 9 cached slots (capacity witness). -/
def c8sA : Structure :=
  { id := 0, transitions := TransitionsTable.new true false, table := none
    deleted := { entry := [], size := 0 }
    added := (DUMMY_SYMBOL, MapEntry.not_found)
    previous := none, prototype := none, calculated_size := 9, transit_count := 0 }

/-- A table-less structure with 20 cached slots (capacity witness). -/
def c8sB : Structure := { c8sA with calculated_size := 20 }

/-- Heap of the witness for claim C3: the heap after adding x on the root. -/
def c3wH : Heap :=
  match c4S1 with
  | some p => p.1
  | none => emptyHeap

/-- Address of S1 in that heap. -/
def c3wA : Nat :=
  match c4S1 with
  | some p => p.2.1
  | none => 0

/-- The S1 record itself. -/
def c3wS : Structure :=
  match c3wH.getS c3wA with
  | some s => s
  | none => c8sA

def c3wDel : Option (Heap × Nat) := delete_property_transition c3wH c3wA 1

def c3wH2 : Heap :=
  match c3wDel with
  | some p => p.1
  | none => emptyHeap

def c3wA2 : Nat :=
  match c3wDel with
  | some p => p.2
  | none => 0

/-- The root record (witness for claim C6). -/
def c6wS : Structure :=
  match rootH.getS rootA with
  | some s => s
  | none => c8sA

/-- The unique structure of the C3 counterexample heap (witness for claim C7). -/
def c7wS : Structure :=
  match c3uH.1.getS c3uH.2 with
  | some s => s
  | none => c8sA

/-- The fields of a structure that the materialisation walk reads: table,
previous and the added delta.  Two heaps agreeing on this view of every
structure produce identical walks. -/
def walkView : Option Structure → Option (Option Nat × Option Nat × (Symbol × MapEntry))
  | Option.none => Option.none
  | some s => some (s.table, s.previous, s.added)

/-- The record that ctor builds before fixing calculated_size (named here so
the characterisation lemma can mention it; definitionally the literal in
Structure.ctor). -/
def derivedRec (a : Nat) (s : Structure) (u : Bool) : Structure :=
  { prototype := s.prototype
    previous := some a
    table := if u && s.is_unique then s.table else none
    transitions := TransitionsTable.new (!u) s.transitions.indexed
    deleted := s.deleted
    added := (DUMMY_SYMBOL, { offset := 4294967295, attrs := AttrSafe.not_found })
    id := 0
    calculated_size := 0
    transit_count := 0 }

/-! ## Theorems -/

/-- Claim C1 (refuted by the code): starting from the empty shared root and
adding 33 distinct properties in sequence, the 33rd returned structure is
still SHARED (transitions enabled), not unique, because ctor initialises
transit_count to 0 and the shared add bumps the successor count to 1, so the
transit_count greater than 32 escape never fires. -/
theorem c1_thirtythird_add_still_shared :
    (c1run.bind (fun p => p.1.getS p.2)).map
        (fun s => (s.transitions.enabled, s.transit_count)) = some (true, 1) := by
  decide

/-- Claim C2 (refuted by the code): after deleting x from the shared S2, the
returned structure has slots_size 1, y still at offset 1, and the freed offset
0 sitting in the deleted chain, but the cached deleted size is 0 (push does
not increment it); the subsequent add of z therefore sees an empty deleted
stack and assigns z offset 1 = slots_size instead of recycling offset 0. -/
theorem c2_deleted_size_not_incremented :
    (c2U1.bind (fun p => (p.1.getS p.2).map
        (fun s => (slotsSize p.1 s, s.deleted.size, s.deleted.entry))))
      = some (1, 0, [0]) ∧
    (c2U1.bind (fun p => (Structure.get p.1 p.2 2).map Prod.snd))
      = some { offset := 1, attrs := defaultDataAttrs } ∧
    addAddr c2Z = c2U1.map Prod.snd ∧
    addOffset c2Z = some 1 ∧
    (c2Z.bind (fun p => (p.1.getS p.2.1).map (fun s => s.deleted.size))) = some 0 := by
  refine ⟨by decide, by decide, by decide, by decide, by decide⟩

/-- Claim C3 counterexample: for a UNIQUE structure with a materialised table,
delete_property_transition derives a unique successor that inherits the very
same table pointer, and removing the entry mutates the original: looking up
symbol 1 on the original observes (0, attrs) before the call and the
NOT_FOUND sentinel after it. -/
theorem c3_counterexample_unique_table_aliased :
    ((Structure.get c3uH.1 c3uH.2 1).map Prod.snd)
      = some { offset := 0, attrs := defaultDataAttrs } ∧
    (c3del.bind (fun p => (Structure.get p.1 c3uH.2 1).map Prod.snd))
      = some MapEntry.not_found ∧
    some MapEntry.not_found ≠
      some { offset := 0, attrs := defaultDataAttrs } := by
  refine ⟨by decide, by decide, by decide⟩

/-- Claim C4: transition caching.  Adding x then y from the empty shared root
produces S1 (address 1, offset 0) and S2 (address 2, offset 1); replaying the
same two adds from R in the resulting heap hits the parents' transition
stores and returns the pointer-identical structures with the same offsets,
leaving the heap completely unchanged. -/
theorem c4_transition_caching :
    (addAddr c4S1 = some 1 ∧ addOffset c4S1 = some 0) ∧
    (addAddr c4S2 = some 2 ∧ addOffset c4S2 = some 1) ∧
    (addAddr c4R1 = some 1 ∧ addOffset c4R1 = some 0) ∧
    (addAddr c4R2 = some 2 ∧ addOffset c4R2 = some 1) ∧
    addHeap c4R1 = addHeap c4S2 ∧
    addHeap c4R2 = addHeap c4S2 := by
  refine ⟨⟨by decide, by decide⟩, ⟨by decide, by decide⟩, ⟨by decide, by decide⟩,
    ⟨by decide, by decide⟩, by decide, by decide⟩

/-- Claim C5 (refuted by the code): on a chain carrying two deltas for the
same symbol 1 (offset 0 attrs 5, then offset 1 attrs 6), the added fast path
of get reports the newest delta (1, 6), but materialising the table replays
the delta stack in push order, newest first, so the OLDEST delta (0, 5) is
the one left in the table; previous is cleared to none afterwards. -/
theorem c5_replay_order_oldest_wins :
    c5fast = some { offset := 1, attrs := ⟨6⟩ } ∧
    (c5mat.map Prod.snd) = some { offset := 0, attrs := ⟨5⟩ } ∧
    some (MapEntry.mk 0 ⟨5⟩) ≠ some (MapEntry.mk 1 ⟨6⟩) ∧
    (c5mat.bind (fun p =>
        c5s3.bind (fun q => (p.1.getS q.2.1).map (fun s => s.previous))))
      = some none := by
  refine ⟨by decide, by decide, by decide, by decide⟩

/-- Claim C9 counterexample: the structure s2 built by adding symbol 1 twice
with different attributes has slots_size 2, symbol 2 is fresh on it, yet
adding 2 and deleting it again yields a structure of slots_size 1, not 2:
the materialised table deduplicates the two deltas for symbol 1 while
calculated_size counted both. -/
theorem c9_counterexample_inconsistent_chain :
    (c5s2.bind (fun p => (p.1.getS p.2.1).map (slotsSize p.1))) = some 2 ∧
    (c5s2.bind (fun p => (Structure.get p.1 p.2.1 2).map Prod.snd))
      = some MapEntry.not_found ∧
    (c9del.bind (fun p => (p.1.getS p.2).map (slotsSize p.1))) = some 1 ∧
    (1 : Nat) ≠ 2 := by
  refine ⟨by decide, by decide, by decide, by decide⟩

/-- Claim C7 counterexample: on a unique structure whose
enabled_unique_transition flag is clear, change_extensible_transition does NOT
reuse self: it returns a freshly allocated successor at a new address. -/
theorem c7_counterexample_always_allocates :
    ((c3uH.1.getS c3uH.2).map
        (fun s => (s.transitions.enabled, s.transitions.unique))) = some (false, false) ∧
    (change_extensible_transition c3uH.1 c3uH.2).map Prod.snd = some 1 ∧
    c3uH.2 = 0 ∧
    (1 : Nat) ≠ 0 := by
  refine ⟨by decide, by decide, by decide, by decide⟩

/-- Claim C10 counterexample: on the 64-bit packed header, writing the Dead
color (4) with set_tag and reading it back with tag yields 0 (White), not 4,
and the discriminator observed via vtable changes from 8 to 12: the two tag
bits cannot hold GC_DEAD. -/
theorem c10_counterexample_dead_tag :
    (Header64.set_tag { ty := 8 } GC_DEAD).tag = 0 ∧
    GC_DEAD = 4 ∧
    (0 : Nat) ≠ 4 ∧
    (Header64.set_tag { ty := 8 } GC_DEAD).vtable = 12 ∧
    Header64.vtable { ty := 8 } = 8 ∧
    (12 : Nat) ≠ 8 := by
  refine ⟨by decide, by decide, by decide, by decide, by decide, by decide⟩

/-! ### Association list lemmas -/

theorem alGet_upd_self {κ α : Type} [DecidableEq κ] (l : List (κ × α)) (k : κ) (v : α) :
    alGet (alUpd l k v) k = some v := by
  induction l with
  | nil => simp [alGet, alUpd]
  | cons p rest ih =>
    rcases p with ⟨k0, v0⟩
    by_cases hk : k0 = k <;> simp [alGet, alUpd, hk, ih]

theorem alGet_upd_ne {κ α : Type} [DecidableEq κ] (l : List (κ × α)) (k k' : κ) (v : α)
    (hne : k ≠ k') : alGet (alUpd l k v) k' = alGet l k' := by
  induction l with
  | nil => simp [alGet, alUpd, hne]
  | cons p rest ih =>
    rcases p with ⟨k0, v0⟩
    by_cases hk : k0 = k
    · subst hk; simp [alGet, alUpd, hne]
    · simp [alGet, alUpd, hk, ih]

theorem alGet_mem {κ α : Type} [DecidableEq κ] (l : List (κ × α)) (k : κ) (v : α)
    (hget : alGet l k = some v) : (k, v) ∈ l := by
  induction l with
  | nil => simp [alGet] at hget
  | cons p rest ih =>
    rcases p with ⟨k0, v0⟩
    by_cases hk : k0 = k
    · subst hk
      simp [alGet] at hget
      simp [hget]
    · simp [alGet, hk] at hget
      exact List.mem_cons_of_mem _ (ih hget)

theorem alDel_upd_cancel {κ α : Type} [DecidableEq κ] (l : List (κ × α)) (k : κ) (v : α)
    (habs : alGet l k = none) : alDel (alUpd l k v) k = l := by
  induction l with
  | nil => simp [alGet, alUpd, alDel]
  | cons p rest ih =>
    rcases p with ⟨k0, v0⟩
    by_cases hk : k0 = k
    · subst hk; simp [alGet] at habs
    · simp [alGet, hk] at habs
      simp [alUpd, alDel, hk, ih habs]

theorem mem_alUpd {κ α : Type} [DecidableEq κ] (l : List (κ × α)) (k : κ) (v : α)
    (p : κ × α) (hp : p ∈ alUpd l k v) : p = (k, v) ∨ p ∈ l := by
  induction l with
  | nil => simpa [alUpd] using hp
  | cons q rest ih =>
    rcases q with ⟨k0, v0⟩
    by_cases hk : k0 = k
    · subst hk
      simp only [alUpd, if_pos rfl] at hp
      rcases List.mem_cons.mp hp with rfl | hrest
      · exact Or.inl rfl
      · exact Or.inr (List.mem_cons_of_mem _ hrest)
    · simp only [alUpd, if_neg hk] at hp
      rcases List.mem_cons.mp hp with rfl | hrest
      · exact Or.inr (List.mem_cons_self _ _)
      · rcases ih hrest with hnew | hold
        · exact Or.inl hnew
        · exact Or.inr (List.mem_cons_of_mem _ hold)

theorem alGet_eq_none_of_not_mem {κ α : Type} [DecidableEq κ] (l : List (κ × α)) (k : κ)
    (hk : k ∉ l.map Prod.fst) : alGet l k = Option.none := by
  induction l with
  | nil => rfl
  | cons q rest ih =>
    rcases q with ⟨k0, v0⟩
    simp only [List.map_cons, List.mem_cons] at hk
    push_neg at hk
    simp only [alGet, if_neg (Ne.symm hk.1)]
    exact ih hk.2

theorem alGet_alDel_self {κ α : Type} [DecidableEq κ] (l : List (κ × α)) (k : κ)
    (hnd : (l.map Prod.fst).Nodup) : alGet (alDel l k) k = Option.none := by
  induction l with
  | nil => rfl
  | cons q rest ih =>
    rcases q with ⟨k0, v0⟩
    simp only [List.map_cons, List.nodup_cons] at hnd
    by_cases hk : k0 = k
    · subst hk
      simp only [alDel, if_pos rfl]
      exact alGet_eq_none_of_not_mem rest k0 hnd.1
    · simp only [alDel, if_neg hk, alGet, if_neg hk]
      exact ih hnd.2

theorem alDel_length_of_mem {κ α : Type} [DecidableEq κ] (l : List (κ × α)) (k : κ)
    (hk : (alGet l k).isSome) : (alDel l k).length + 1 = l.length := by
  induction l with
  | nil => simp [alGet] at hk
  | cons q rest ih =>
    rcases q with ⟨k0, v0⟩
    by_cases h0 : k0 = k
    · simp [alDel, h0]
    · simp only [alGet, if_neg h0] at hk
      simp only [alDel, if_neg h0, List.length_cons]
      rw [← ih hk]

theorem alUpd_length_of_not_mem {κ α : Type} [DecidableEq κ] (l : List (κ × α)) (k : κ)
    (v : α) (hk : alGet l k = Option.none) : (alUpd l k v).length = l.length + 1 := by
  induction l with
  | nil => rfl
  | cons q rest ih =>
    rcases q with ⟨k0, v0⟩
    by_cases h0 : k0 = k
    · subst h0
      simp [alGet] at hk
    · simp only [alGet, if_neg h0] at hk
      simp only [alUpd, if_neg h0, List.length_cons, ih hk]

theorem alUpd_keys_nodup {κ α : Type} [DecidableEq κ] (l : List (κ × α)) (k : κ) (v : α)
    (hnd : (l.map Prod.fst).Nodup) : ((alUpd l k v).map Prod.fst).Nodup := by
  induction l with
  | nil => simp [alUpd]
  | cons q rest ih =>
    rcases q with ⟨k0, v0⟩
    simp only [List.map_cons, List.nodup_cons] at hnd
    by_cases hk : k0 = k
    · simp only [alUpd, if_pos hk, List.map_cons, List.nodup_cons]
      exact ⟨hk ▸ hnd.1, hnd.2⟩
    · simp only [alUpd, if_neg hk, List.map_cons, List.nodup_cons]
      refine ⟨?_, ih hnd.2⟩
      intro hmem
      rcases List.mem_map.mp hmem with ⟨p, hp, hpk⟩
      rcases mem_alUpd rest k v p hp with rfl | hold
      · exact hk hpk.symm
      · exact hnd.1 (List.mem_map.mpr ⟨p, hold, hpk⟩)

theorem alDel_upd_comm {κ α : Type} [DecidableEq κ] (l : List (κ × α)) (k k' : κ) (v' : α)
    (hne : k ≠ k') : alDel (alUpd l k' v') k = alUpd (alDel l k) k' v' := by
  have hne' : k' ≠ k := Ne.symm hne
  induction l with
  | nil => simp [alUpd, alDel, hne']
  | cons p rest ih =>
    rcases p with ⟨k0, v0⟩
    by_cases h0 : k0 = k'
    · subst h0
      simp [alUpd, alDel, hne']
    · by_cases h1 : k0 = k
      · subst h1
        simp [alUpd, alDel, h0]
      · simp [alUpd, alDel, h0, h1, ih]

/-! ### Heap access lemmas -/

theorem getS_setS_self (h : Heap) (a : Nat) (s : Structure) :
    (h.setS a s).getS a = some s :=
  alGet_upd_self h.structs a s

theorem getS_setS_ne (h : Heap) (a b : Nat) (s : Structure) (hne : a ≠ b) :
    (h.setS a s).getS b = h.getS b :=
  alGet_upd_ne h.structs a b s hne

theorem getS_allocS_ne (h : Heap) (s : Structure) (b : Nat) (hb : b ≠ h.nextS) :
    (h.allocS s).1.getS b = h.getS b := by
  have hb' : h.nextS ≠ b := Ne.symm hb
  simp [Heap.allocS, Heap.getS, alGet, hb']

theorem getS_allocS_self (h : Heap) (s : Structure) :
    (h.allocS s).1.getS h.nextS = some s := by
  simp [Heap.allocS, Heap.getS, alGet]

theorem getT_setT_self (h : Heap) (t : Nat) (tbl : TargetTable) :
    (h.setT t tbl).getT t = some tbl :=
  alGet_upd_self h.tables t tbl

theorem getT_setT_ne (h : Heap) (t u : Nat) (tbl : TargetTable) (hne : t ≠ u) :
    (h.setT t tbl).getT u = h.getT u :=
  alGet_upd_ne h.tables t u tbl hne

theorem getT_allocT_ne (h : Heap) (tbl : TargetTable) (u : Nat) (hu : u ≠ h.nextT) :
    (h.allocT tbl).1.getT u = h.getT u := by
  have hu' : h.nextT ≠ u := Ne.symm hu
  simp [Heap.allocT, Heap.getT, alGet, hu']

theorem getT_allocT_self (h : Heap) (tbl : TargetTable) :
    (h.allocT tbl).1.getT h.nextT = some tbl := by
  simp [Heap.allocT, Heap.getT, alGet]

theorem getS_lt_nextS (h : Heap) (a : Nat) (s : Structure) (hwf : h.wf)
    (hs : h.getS a = some s) : a < h.nextS :=
  (hwf.1 (a, s) (alGet_mem h.structs a s hs)).1

theorem getS_table_lt_nextT (h : Heap) (a : Nat) (s : Structure) (t : Nat) (hwf : h.wf)
    (hs : h.getS a = some s) (ht : s.table = some t) : t < h.nextT :=
  (hwf.1 (a, s) (alGet_mem h.structs a s hs)).2.1 t ht

theorem getS_previous_lt_nextS (h : Heap) (a : Nat) (s : Structure) (q : Nat) (hwf : h.wf)
    (hs : h.getS a = some s) (hq : s.previous = some q) : q < h.nextS :=
  (hwf.1 (a, s) (alGet_mem h.structs a s hs)).2.2 q hq

/-! ### Bit lemmas for the packed header (claim C10) -/

theorem usizeNot3_testBit (i : Nat) :
    usizeNot3.testBit i = (decide (2 ≤ i) && decide (i < 64)) := by
  have h : usizeNot3 = (2 ^ 62 - 1) <<< 2 := by decide
  rw [h, Nat.testBit_shiftLeft, Nat.testBit_two_pow_sub_one]
  by_cases h2 : 2 ≤ i
  · have hx : (decide (i ≥ 2)) = true := by simpa using h2
    rw [hx, Bool.true_and, Bool.true_and]
    exact decide_eq_decide.mpr (by omega)
  · have hx : (decide (i ≥ 2)) = false := by simpa using h2
    rw [hx, Bool.false_and, Bool.false_and]

theorem testBit_of_lt_four (t i : Nat) (ht : t < 4) (hi : 2 ≤ i) : t.testBit i = false := by
  apply Nat.testBit_eq_false_of_lt
  calc t < 4 := ht
    _ = 2 ^ 2 := by decide
    _ ≤ 2 ^ i := Nat.pow_le_pow_right (by decide) hi

theorem set_tag_low_bits (x t : Nat) (ht : t < 4) :
    ((x &&& usizeNot3) ||| t) &&& 3 = t := by
  apply Nat.eq_of_testBit_eq
  intro i
  have h3 : Nat.testBit 3 i = decide (i < 2) := by
    rw [show (3 : Nat) = 2 ^ 2 - 1 by decide, Nat.testBit_two_pow_sub_one]
  simp only [Nat.testBit_land, Nat.testBit_lor, usizeNot3_testBit, h3]
  by_cases hi : i < 2
  · have hn : ¬ 2 ≤ i := by omega
    simp [hn, hi]
  · have h2 : t.testBit i = false := testBit_of_lt_four t i ht (by omega)
    simp [hi, h2]

theorem set_tag_high_bits (x t : Nat) (ht : t < 4) :
    ((x &&& usizeNot3) ||| t) &&& usizeNot3 = x &&& usizeNot3 := by
  apply Nat.eq_of_testBit_eq
  intro i
  simp only [Nat.testBit_land, Nat.testBit_lor, usizeNot3_testBit]
  by_cases hi : 2 ≤ i
  · have h2 : t.testBit i = false := testBit_of_lt_four t i ht hi
    by_cases h64 : i < 64 <;> simp [hi, h64, h2]
  · simp [hi]

/-- Claim C10 (amended): on the 64-bit packed header, the colors that fit in
the two tag bits, White (0), Black (1) and Gray (2), round trip through
set_tag and tag and leave the vtable observation unchanged; on the
separate-tag-byte variant every color, Dead (4) included, round trips with
the vtable untouched.  (Dead does not round trip on the packed variant: see
the counterexample.) -/
theorem c10_tag_round_trip (hd : Header64) (t : Nat)
    (ht : t = GC_WHITE ∨ t = GC_BLACK ∨ t = GC_GRAY) (hf : HeaderTagField) :
    ((hd.set_tag t).tag = t ∧ (hd.set_tag t).vtable = hd.vtable) ∧
    ((hf.set_tag t).tag = t ∧ (hf.set_tag t).vtable = hf.vtable) ∧
    ((hf.set_tag GC_DEAD).tag = GC_DEAD ∧ (hf.set_tag GC_DEAD).vtable = hf.vtable) := by
  have ht4 : t < 4 := by
    rcases ht with h | h | h <;> simp [h, GC_WHITE, GC_BLACK, GC_GRAY]
  refine ⟨⟨?_, ?_⟩, ⟨rfl, rfl⟩, ⟨rfl, rfl⟩⟩
  · exact set_tag_low_bits hd.ty t ht4
  · exact set_tag_high_bits hd.ty t ht4

theorem c10_tag_round_trip_witness :
    ((Header64.set_tag { ty := 8 } GC_GRAY).tag = GC_GRAY ∧
     (Header64.set_tag { ty := 8 } GC_GRAY).vtable = Header64.vtable { ty := 8 }) ∧
    ((HeaderTagField.set_tag { ty := 8, tagF := 0 } GC_GRAY).tag = GC_GRAY ∧
     (HeaderTagField.set_tag { ty := 8, tagF := 0 } GC_GRAY).vtable
        = HeaderTagField.vtable { ty := 8, tagF := 0 }) ∧
    ((HeaderTagField.set_tag { ty := 8, tagF := 0 } GC_DEAD).tag = GC_DEAD ∧
     (HeaderTagField.set_tag { ty := 8, tagF := 0 } GC_DEAD).vtable
        = HeaderTagField.vtable { ty := 8, tagF := 0 }) :=
  c10_tag_round_trip { ty := 8 } GC_GRAY (Or.inr (Or.inr rfl)) { ty := 8, tagF := 0 }

/-! ### Power-of-two lemmas for the capacity policy (claim C8) -/

theorem window_step (x y k : Nat)
    (h : ∀ i, y.testBit i = true ↔ ∃ j, j < k ∧ x.testBit (i + j) = true) (i : Nat) :
    (y ||| y >>> k).testBit i = true ↔ ∃ j, j < 2 * k ∧ x.testBit (i + j) = true := by
  rw [Nat.testBit_lor, Nat.testBit_shiftRight, Bool.or_eq_true, h i, h (k + i)]
  constructor
  · rintro (⟨j, hj, hb⟩ | ⟨j, hj, hb⟩)
    · exact ⟨j, by omega, hb⟩
    · refine ⟨k + j, by omega, ?_⟩
      have he : i + (k + j) = k + i + j := by omega
      rw [he]; exact hb
  · rintro ⟨j, hj, hb⟩
    by_cases hjk : j < k
    · exact Or.inl ⟨j, hjk, hb⟩
    · refine Or.inr ⟨j - k, by omega, ?_⟩
      have he : k + i + (j - k) = i + j := by omega
      rw [he]; exact hb

theorem smearBits_window (x i : Nat) :
    (smearBits x).testBit i = true ↔ ∃ j, j < 32 ∧ x.testBit (i + j) = true := by
  have h1 : ∀ i, x.testBit i = true ↔ ∃ j, j < 1 ∧ x.testBit (i + j) = true := by
    intro i
    constructor
    · intro hb; exact ⟨0, by omega, by simpa using hb⟩
    · rintro ⟨j, hj, hb⟩
      have hj0 : j = 0 := by omega
      subst hj0; simpa using hb
  have h2 := window_step x x 1 h1
  have h4 := window_step x (x ||| x >>> 1) 2 h2
  have h8 := window_step x ((x ||| x >>> 1) ||| (x ||| x >>> 1) >>> 2) 4 h4
  have h16 := window_step x
    (((x ||| x >>> 1) ||| (x ||| x >>> 1) >>> 2) |||
      ((x ||| x >>> 1) ||| (x ||| x >>> 1) >>> 2) >>> 4) 8 h8
  have h32 := window_step x
    ((((x ||| x >>> 1) ||| (x ||| x >>> 1) >>> 2) |||
        ((x ||| x >>> 1) ||| (x ||| x >>> 1) >>> 2) >>> 4) |||
      (((x ||| x >>> 1) ||| (x ||| x >>> 1) >>> 2) |||
        ((x ||| x >>> 1) ||| (x ||| x >>> 1) >>> 2) >>> 4) >>> 8) 16 h16
  exact h32 i

theorem testBit_size_pred (x : Nat) (hx : 0 < x) : x.testBit (x.size - 1) = true := by
  have hlt : x < 2 ^ x.size := Nat.lt_size_self x
  have hpos : 0 < x.size := Nat.size_pos.mpr hx
  have hle : 2 ^ (x.size - 1) ≤ x := Nat.lt_size.mp (by omega)
  rw [Nat.testBit_to_div_mod]
  have hdiv : x / 2 ^ (x.size - 1) = 1 := by
    apply Nat.div_eq_of_lt_le
    · simpa using hle
    · have h2 : 2 ^ x.size = 2 * 2 ^ (x.size - 1) := by
        rw [← pow_succ']
        congr 1
        omega
      omega
  simp [hdiv]

theorem smearBits_eq (x : Nat) (hx : x < 2 ^ 32) : smearBits x = 2 ^ x.size - 1 := by
  apply Nat.eq_of_testBit_eq
  intro i
  rw [Nat.testBit_two_pow_sub_one]
  cases hsb : (smearBits x).testBit i with
  | true =>
    obtain ⟨j, hj, hbit⟩ := (smearBits_window x i).mp hsb
    have hlt : i + j < x.size := by
      by_contra hcon
      have hxlt : x < 2 ^ (i + j) :=
        lt_of_lt_of_le (Nat.lt_size_self x) (Nat.pow_le_pow_right (by decide) (by omega))
      rw [Nat.testBit_eq_false_of_lt hxlt] at hbit
      exact Bool.false_ne_true hbit
    symm
    simp [show i < x.size by omega]
  | false =>
    symm
    simp only [decide_eq_false_iff_not]
    intro hlt
    have hx0 : 0 < x := Nat.size_pos.mp (by omega)
    have hsize : x.size ≤ 32 := Nat.size_le.mpr hx
    have hmsb := testBit_size_pred x hx0
    have htrue : (smearBits x).testBit i = true := by
      refine (smearBits_window x i).mpr ⟨x.size - 1 - i, by omega, ?_⟩
      have he : i + (x.size - 1 - i) = x.size - 1 := by omega
      rw [he]; exact hmsb
    rw [hsb] at htrue
    exact Bool.false_ne_true htrue

theorem clp2_eq_pow (n : Nat) (h1 : 1 ≤ n) (h2 : n ≤ 2 ^ 32) :
    clp2 n = 2 ^ Nat.size (n - 1) := by
  have hx : n - 1 < 2 ^ 32 := by omega
  have hs := smearBits_eq (n - 1) hx
  have heq : clp2 n = smearBits (n - 1) + 1 := rfl
  have hpos : 0 < 2 ^ Nat.size (n - 1) := Nat.pos_pow_of_pos _ (by decide)
  omega

/-- Claim C8: the capacity policy.  For every structure (with the machine
bound slots_size at most 2^32, automatic for the u32-cached sizes the code
manipulates): capacity 0 for an empty structure, 8 for 1..7 slots, and for 8
or more slots exactly the least power of two at or above slots_size; the
policy is monotone in slots_size. -/
theorem c8_capacity_policy (h : Heap) (s s2 : Structure)
    (hb : slotsSize h s ≤ 2 ^ 32) (hb2 : slotsSize h s2 ≤ 2 ^ 32) :
    (slotsSize h s = 0 → storage_capacity h s = 0) ∧
    (1 ≤ slotsSize h s → slotsSize h s ≤ 7 → storage_capacity h s = 8) ∧
    (8 ≤ slotsSize h s →
      storage_capacity h s = 2 ^ Nat.size (slotsSize h s - 1) ∧
      slotsSize h s ≤ storage_capacity h s ∧
      (∀ c, slotsSize h s ≤ 2 ^ c → storage_capacity h s ≤ 2 ^ c)) ∧
    (slotsSize h s ≤ slotsSize h s2 → storage_capacity h s ≤ storage_capacity h s2) := by
  have hcap : ∀ s', storage_capacity h s' =
      (if slotsSize h s' = 0 then 0 else if slotsSize h s' < 8 then 8
       else clp2 (slotsSize h s')) := fun s' => rfl
  have main : ∀ s', slotsSize h s' ≤ 2 ^ 32 → 8 ≤ slotsSize h s' →
      storage_capacity h s' = 2 ^ Nat.size (slotsSize h s' - 1) ∧
      slotsSize h s' ≤ storage_capacity h s' ∧
      (∀ c, slotsSize h s' ≤ 2 ^ c → storage_capacity h s' ≤ 2 ^ c) := by
    intro s' hb' h8
    have hpow : storage_capacity h s' = 2 ^ Nat.size (slotsSize h s' - 1) := by
      rw [hcap s']
      have h0 : ¬ slotsSize h s' = 0 := by omega
      have h1 : ¬ slotsSize h s' < 8 := by omega
      simp only [h0, h1, if_false]
      exact clp2_eq_pow _ (by omega) hb'
    refine ⟨hpow, ?_, ?_⟩
    · rw [hpow]
      have := Nat.lt_size_self (slotsSize h s' - 1)
      omega
    · intro c hc
      rw [hpow]
      exact Nat.pow_le_pow_right (by decide) (Nat.size_le.mpr (by omega))
  refine ⟨?_, ?_, main s hb, ?_⟩
  · intro h0; rw [hcap s]; simp [h0]
  · intro h1 h7
    rw [hcap s]
    have h0 : ¬ slotsSize h s = 0 := by omega
    simp [h0, show slotsSize h s < 8 by omega]
  · intro hle
    by_cases hz : slotsSize h s = 0
    · rw [hcap s]; simp [hz]
    · by_cases hs8 : slotsSize h s < 8
      · have hcs : storage_capacity h s = 8 := by
          rw [hcap s]; simp [hz, hs8]
        by_cases hz2 : slotsSize h s2 = 0
        · omega
        · by_cases hs28 : slotsSize h s2 < 8
          · have : storage_capacity h s2 = 8 := by rw [hcap s2]; simp [hz2, hs28]
            omega
          · have h2 := main s2 hb2 (by omega)
            omega
      · have h1 := main s hb (by omega)
        have h2 := main s2 hb2 (by omega)
        have hmono : 2 ^ Nat.size (slotsSize h s - 1) ≤ 2 ^ Nat.size (slotsSize h s2 - 1) :=
          Nat.pow_le_pow_right (by decide) (Nat.size_le_size (by omega))
        omega

theorem c8_capacity_policy_witness :
    (slotsSize emptyHeap c8sA = 0 → storage_capacity emptyHeap c8sA = 0) ∧
    (1 ≤ slotsSize emptyHeap c8sA → slotsSize emptyHeap c8sA ≤ 7 →
      storage_capacity emptyHeap c8sA = 8) ∧
    (8 ≤ slotsSize emptyHeap c8sA →
      storage_capacity emptyHeap c8sA = 2 ^ Nat.size (slotsSize emptyHeap c8sA - 1) ∧
      slotsSize emptyHeap c8sA ≤ storage_capacity emptyHeap c8sA ∧
      (∀ c, slotsSize emptyHeap c8sA ≤ 2 ^ c →
        storage_capacity emptyHeap c8sA ≤ 2 ^ c)) ∧
    (slotsSize emptyHeap c8sA ≤ slotsSize emptyHeap c8sB →
      storage_capacity emptyHeap c8sA ≤ storage_capacity emptyHeap c8sB) :=
  c8_capacity_policy emptyHeap c8sA c8sB (by decide) (by decide)

/-! ### Frame facts for the heap mutators -/

theorem getS_setT (h : Heap) (t : Nat) (tbl : TargetTable) (b : Nat) :
    (h.setT t tbl).getS b = h.getS b := rfl

theorem getT_setS (h : Heap) (a : Nat) (s : Structure) (u : Nat) :
    (h.setS a s).getT u = h.getT u := rfl

theorem getT_allocS (h : Heap) (s : Structure) (u : Nat) :
    (h.allocS s).1.getT u = h.getT u := rfl

theorem getS_allocT (h : Heap) (tbl : TargetTable) (b : Nat) :
    (h.allocT tbl).1.getS b = h.getS b := rfl

/-! ### Characterisations of ctor and allocate_table -/

theorem ctor_result (h : Heap) (a : Nat) (u : Bool) (s : Structure)
    (hs : h.getS a = some s) :
    ∃ h1, Structure.ctor h a u = some (h1, h.nextS) ∧
      h1.nextS = h.nextS + 1 ∧ h1.nextT = h.nextT ∧ h1.tables = h.tables ∧
      (∀ b, b ≠ h.nextS → h1.getS b = h.getS b) ∧
      ∃ s1, h1.getS h.nextS = some s1 ∧
        s1.transitions = TransitionsTable.new (!u) s.transitions.indexed ∧
        s1.table = (if u && s.is_unique then s.table else Option.none) ∧
        s1.deleted = s.deleted ∧
        s1.added = (DUMMY_SYMBOL, MapEntry.not_found) ∧
        s1.previous = some a ∧
        s1.prototype = s.prototype ∧
        s1.transit_count = 0 ∧
        (s1.table = Option.none → s1.calculated_size = 0) := by
  have hmain : Structure.ctor h a u =
      some ((h.allocS (derivedRec a s u)).1.setS h.nextS
        { derivedRec a s u with
            calculated_size := slotsSize (h.allocS (derivedRec a s u)).1 (derivedRec a s u) },
        h.nextS) := by
    unfold Structure.ctor derivedRec
    rw [hs]
    rfl
  refine ⟨_, hmain, ?_, ?_, ?_, ?_, ?_⟩
  · simp [Heap.setS, Heap.allocS]
  · simp [Heap.setS, Heap.allocS]
  · simp [Heap.setS, Heap.allocS]
  · intro b hb
    rw [getS_setS_ne _ _ _ _ (Ne.symm hb)]
    exact getS_allocS_ne h _ b hb
  · refine ⟨_, getS_setS_self _ _ _, rfl, rfl, rfl, rfl, rfl, rfl, rfl, ?_⟩
    intro htn
    have ht' : (derivedRec a s u).table = Option.none := htn
    show slotsSize (h.allocS (derivedRec a s u)).1 (derivedRec a s u) = 0
    simp only [slotsSize]
    rw [ht']
    rfl

theorem allocate_table_shape (h : Heap) (a : Nat) (h2 : Heap)
    (ha : Structure.allocate_table h a = some h2) :
    ∃ s stack base tbl, h.getS a = some s ∧
      allocWalk h (h.nextS + 1) s.previous (if s.is_adding_map then [a] else [])
        = some (stack, base) ∧
      foldInserts h stack base = some tbl ∧
      h2 = (h.allocT tbl).1.setS a { s with table := some h.nextT, previous := Option.none } := by
  unfold Structure.allocate_table at ha
  cases hgs : h.getS a with
  | none => simp [hgs] at ha
  | some s =>
    simp only [hgs] at ha
    cases hw : allocWalk h (h.nextS + 1) s.previous (if s.is_adding_map then [a] else []) with
    | none => simp [hw] at ha
    | some sb =>
      obtain ⟨stack, base⟩ := sb
      simp only [hw] at ha
      cases hf : foldInserts h stack base with
      | none => simp [hf] at ha
      | some tbl =>
        simp only [hf] at ha
        injection ha with ha1
        exact ⟨s, stack, base, tbl, rfl, hw, hf, ha1.symm⟩

/-- The base table that the materialisation walk clones is either empty or the
contents of a heap table, so HashMap key-uniqueness of the heap tables carries
over to it. -/
theorem allocWalk_base_nodup (h : Heap)
    (hnd : ∀ p ∈ h.tables, ((p.2).map Prod.fst).Nodup) :
    ∀ (f : Nat) (c : Option Nat) (acc st : List Nat) (base : TargetTable),
      allocWalk h f c acc = some (st, base) → (base.map Prod.fst).Nodup := by
  intro f
  induction f with
  | zero =>
    intro c acc st base hw
    cases c with
    | none =>
      simp only [allocWalk, Option.some.injEq] at hw
      rw [show base = [] from (congrArg Prod.snd hw).symm]
      simp
    | some cur => simp [allocWalk] at hw
  | succ f ih =>
    intro c acc st base hw
    cases c with
    | none =>
      simp only [allocWalk, Option.some.injEq] at hw
      rw [show base = [] from (congrArg Prod.snd hw).symm]
      simp
    | some cur =>
      simp only [allocWalk] at hw
      cases hgs : h.getS cur with
      | none => rw [hgs] at hw; simp at hw
      | some cs =>
        simp only [hgs] at hw
        cases hct : cs.table with
        | some t =>
          simp only [hct, Option.some.injEq] at hw
          rw [show base = (h.getT t).getD [] from (congrArg Prod.snd hw).symm]
          cases hgt : h.getT t with
          | none => simp
          | some tb =>
            simp only [Option.getD_some]
            exact hnd (t, tb) (alGet_mem h.tables t tb hgt)
        | none =>
          simp only [hct] at hw
          exact ih _ _ st base hw

/-- Replaying deltas with HashMap inserts preserves key-uniqueness. -/
theorem foldInserts_nodup (h : Heap) :
    ∀ (l : List Nat) (t r : TargetTable), (t.map Prod.fst).Nodup →
      foldInserts h l t = some r → (r.map Prod.fst).Nodup := by
  intro l
  induction l with
  | nil =>
    intro t r hnd hf
    simp only [foldInserts, Option.some.injEq] at hf
    subst hf
    exact hnd
  | cons b rest ih =>
    intro t r hnd hf
    simp only [foldInserts] at hf
    cases hgs : h.getS b with
    | none => rw [hgs] at hf; simp at hf
    | some sb =>
      simp only [hgs] at hf
      exact ih _ r (alUpd_keys_nodup t sb.added.1 sb.added.2 hnd) hf

/-- Claim C7 (amended): change_extensible_transition NEVER reuses self — for
every structure, unique or shared, flag set or clear, it allocates a fresh
unique successor at a new address (self stays untouched); only
change_prototype_transition and change_indexed_transition follow the
unique-aware reuse pattern. -/
theorem c7_change_extensible_always_fresh (h : Heap) (a : Nat) (s : Structure)
    (hwf : h.wf) (hs : h.getS a = some s) :
    ∃ h1, change_extensible_transition h a = some (h1, h.nextS) ∧
      h.nextS ≠ a ∧
      h1.getS a = some s ∧
      ∃ s1, h1.getS h.nextS = some s1 ∧
        s1.is_unique = true ∧ s1.previous = some a := by
  obtain ⟨h1, hceq, _, _, _, hframe, s1, hget1, htrans, _, _, _, hprev, _, _, _⟩ :=
    ctor_result h a true s hs
  have ha : a < h.nextS := getS_lt_nextS h a s hwf hs
  have hne : h.nextS ≠ a := by omega
  refine ⟨h1, ?_, hne, ?_, s1, hget1, ?_, hprev⟩
  · simpa [change_extensible_transition, Structure.new_unique] using hceq
  · rw [hframe a (by omega)]; exact hs
  · rw [Structure.is_unique, htrans]; rfl

theorem c7_change_extensible_always_fresh_witness :
    ∃ h1, change_extensible_transition c3uH.1 c3uH.2 = some (h1, c3uH.1.nextS) ∧
      c3uH.1.nextS ≠ c3uH.2 ∧
      h1.getS c3uH.2 = some c7wS ∧
      ∃ s1, h1.getS c3uH.1.nextS = some s1 ∧
        s1.is_unique = true ∧ s1.previous = some c3uH.2 :=
  c7_change_extensible_always_fresh c3uH.1 c3uH.2 c7wS (by decide) (by decide)

/-- Characterisation of Structure::delete: it requires a materialised table
holding the name, removes the entry through the table pointer and pushes the
freed offset. -/
theorem del_shape (h : Heap) (a : Nat) (name : Symbol) (h3 : Heap)
    (hd : Structure.del h a name = some h3) :
    ∃ s tA it, h.getS a = some s ∧ s.table = some tA ∧
      alGet ((h.getT tA).getD []) name = some it ∧
      h3 = (h.setT tA (alDel ((h.getT tA).getD []) name)).setS a
        { s with deleted := s.deleted.push it.offset } := by
  unfold Structure.del at hd
  cases hgs : h.getS a with
  | none => simp [hgs] at hd
  | some s =>
    simp only [hgs] at hd
    cases hst : s.table with
    | none => simp [hst] at hd
    | some tA =>
      simp only [hst] at hd
      cases hlk : alGet ((h.getT tA).getD []) name with
      | none => simp [hlk] at hd
      | some it =>
        simp only [hlk] at hd
        injection hd with hd1
        refine ⟨s, tA, it, rfl, hst, hlk, ?_⟩
        rw [hst]
        exact hd1.symm

/-- Claim C3 (amended): delete_property_transition returns a NEW (fresh
address) UNIQUE structure from whose materialised table the name has been
removed — a lookup of the name on the returned structure observes the
NOT_FOUND sentinel, given that the heap tables have pairwise-distinct keys,
which is inherent to their Rust HashMap type — and leaves the original
structure unchanged: its record, the contents of its table, and its
slots_size all read back exactly as before, PROVIDED the original is shared
or has no materialised table.  (For a unique original with a materialised
table the unique successor inherits that very table pointer and the delete
is visible through the original: see the counterexample.) -/
theorem c3_delete_preserves_original (h : Heap) (a : Nat) (name : Symbol) (s : Structure)
    (h2 : Heap) (a2 : Nat)
    (hwf : h.wf) (hs : h.getS a = some s)
    (hcase : s.transitions.enabled = true ∨ s.table = Option.none)
    (hdel : delete_property_transition h a name = some (h2, a2)) :
    h2.getS a = some s ∧
    (∀ t, s.table = some t → h2.getT t = h.getT t) ∧
    slotsSize h2 s = slotsSize h s ∧
    a2 ≠ a ∧
    ∃ s2 t2 tbl2, h2.getS a2 = some s2 ∧ s2.is_unique = true ∧
      s2.table = some t2 ∧ h2.getT t2 = some tbl2 ∧
      ((∀ p ∈ h.tables, ((p.2).map Prod.fst).Nodup) →
        alGet tbl2 name = Option.none ∧
        Structure.get h2 a2 name = some (h2, MapEntry.not_found)) := by
  obtain ⟨h1, hctor, hnS1, hnT1, htab1, hframe1, s1, hget1, htrans1, htable1,
    hdelet1, hadd1, hprev1, hproto1, htc1, hcalc1⟩ := ctor_result h a true s hs
  have ha : a < h.nextS := getS_lt_nextS h a s hwf hs
  have hU : s1.table = Option.none := by
    rcases hcase with hc | hc
    · have hub : s.is_unique = false := by simp [Structure.is_unique, hc]
      rw [htable1, hub]
      simp
    · rw [htable1, hc]
      cases hb : (true && s.is_unique) <;> simp
  have hgetT1 : ∀ t, h1.getT t = h.getT t := by
    intro t
    show alGet h1.tables t = alGet h.tables t
    rw [htab1]
  unfold delete_property_transition Structure.new_unique at hdel
  simp only [hctor] at hdel
  simp only [hget1] at hdel
  simp only [Structure.has_table, hU, Option.isSome_none, Bool.false_eq_true,
    if_false] at hdel
  cases halloc : Structure.allocate_table h1 h.nextS with
  | none => simp [halloc] at hdel
  | some h2x =>
    simp only [halloc] at hdel
    obtain ⟨sx, stkx, basex, tblx, hgsx, hwkx, hfx, h2eq⟩ :=
      allocate_table_shape h1 h.nextS h2x halloc
    rw [hget1] at hgsx
    injection hgsx with hsx
    subst hsx
    cases hdl : Structure.del h2x h.nextS name with
    | none => simp [hdl] at hdel
    | some h3 =>
      simp only [hdl] at hdel
      injection hdel with hpair
      injection hpair with hh2 ha2
      obtain ⟨sd, tA, it, hgsd, htA, hlk, h3eq⟩ := del_shape h2x h.nextS name h3 hdl
      have hsd : sd = { s1 with table := some h1.nextT, previous := Option.none } := by
        rw [h2eq, getS_setS_self] at hgsd
        injection hgsd with hx
        exact hx.symm
      rw [hsd] at htA
      injection htA with htAq
      subst htAq
      have hgeta : h2x.getS a = h.getS a := by
        rw [h2eq, getS_setS_ne _ _ _ _ (by omega), getS_allocT]
        exact hframe1 a (by omega)
      have hgetta : ∀ t, t ≠ h1.nextT → h2x.getT t = h.getT t := by
        intro t htne
        rw [h2eq, getT_setS, getT_allocT_ne _ _ _ htne]
        exact hgetT1 t
      have hgf : ∀ t, t < h.nextT → h3.getT t = h.getT t := by
        intro t htlt
        have htne : t ≠ h1.nextT := by omega
        rw [h3eq, getT_setS, getT_setT_ne _ _ _ _ (Ne.symm htne)]
        exact hgetta t htne
      have hgsa : h3.getS a = some s := by
        rw [h3eq, getS_setS_ne _ _ _ _ (by omega), getS_setT, hgeta]
        exact hs
      subst hh2
      subst ha2
      have hgetTblx : h2x.getT h1.nextT = some tblx := by
        rw [h2eq, getT_setS]
        exact getT_allocT_self _ _
      simp only [hgetTblx, Option.getD_some] at h3eq hlk
      have hgsF : h3.getS h.nextS =
          some { sd with deleted := sd.deleted.push it.offset } := by
        rw [h3eq]
        exact getS_setS_self _ _ _
      have hFu : ({ sd with deleted := sd.deleted.push it.offset } : Structure).is_unique
          = true := by
        show (!sd.transitions.enabled) = true
        rw [hsd]
        show (!s1.transitions.enabled) = true
        rw [htrans1]
        rfl
      have hFt : sd.table = some h1.nextT := by
        rw [hsd]
      have hgTF : h3.getT h1.nextT = some (alDel tblx name) := by
        rw [h3eq, getT_setS]
        exact getT_setT_self _ _ _
      refine ⟨hgsa, ?_, ?_, by omega, ?_⟩
      · intro t hts
        exact hgf t (getS_table_lt_nextT h a s t hwf hs hts)
      · unfold slotsSize
        cases hts : s.table with
        | none => rfl
        | some t =>
          have hq := hgf t (getS_table_lt_nextT h a s t hwf hs hts)
          simp only [hq]
      · refine ⟨_, h1.nextT, alDel tblx name, hgsF, hFu, hFt, hgTF, ?_⟩
        intro hnd
        have hnd1 : ∀ p ∈ h1.tables, ((p.2).map Prod.fst).Nodup := by
          rw [htab1]
          exact hnd
        have hbnd := allocWalk_base_nodup h1 hnd1 _ _ _ _ _ hwkx
        have htnd := foldInserts_nodup h1 _ _ _ hbnd hfx
        have habs : alGet (alDel tblx name) name = Option.none :=
          alGet_alDel_self tblx name htnd
        have hget3 : Structure.get h3 h.nextS name = some (h3, MapEntry.not_found) := by
          simp [Structure.get, hgsF, Structure.has_table, hFt, hgTF, habs]
        exact ⟨habs, hget3⟩

theorem c3_delete_preserves_original_witness :
    c3wH2.getS c3wA = some c3wS ∧
    (∀ t, c3wS.table = some t → c3wH2.getT t = c3wH.getT t) ∧
    slotsSize c3wH2 c3wS = slotsSize c3wH c3wS ∧
    c3wA2 ≠ c3wA ∧
    ∃ s2 t2 tbl2, c3wH2.getS c3wA2 = some s2 ∧ s2.is_unique = true ∧
      s2.table = some t2 ∧ c3wH2.getT t2 = some tbl2 ∧
      ((∀ p ∈ c3wH.tables, ((p.2).map Prod.fst).Nodup) →
        alGet tbl2 1 = Option.none ∧
        Structure.get c3wH2 c3wA2 1 = some (c3wH2, MapEntry.not_found)) :=
  c3_delete_preserves_original c3wH c3wA 1 c3wS c3wH2 c3wA2 (by decide) (by decide)
    (Or.inl (by decide)) (by decide)

/-- Claim C6: lookup semantics of get.  With neither table nor previous the
NOT_FOUND sentinel comes back and the heap is untouched; with no table but a
previous link and the added delta naming exactly the queried symbol the delta
entry comes back without materialising; with a table the probed entry (or the
sentinel) comes back; otherwise get materialises the table and probes it,
returning an entry in every case that the materialisation walk completes. -/
theorem c6_get_semantics (h : Heap) (a : Nat) (name : Symbol) (s : Structure)
    (hs : h.getS a = some s) :
    (s.table = Option.none → s.previous = Option.none →
       Structure.get h a name = some (h, MapEntry.not_found)) ∧
    (s.table = Option.none → s.previous.isSome = true → s.added.1 = name →
       name ≠ DUMMY_SYMBOL →
       Structure.get h a name = some (h, s.added.2)) ∧
    (∀ t, s.table = some t →
       Structure.get h a name =
         some (h, (alGet ((h.getT t).getD []) name).getD MapEntry.not_found)) ∧
    (s.table = Option.none → s.previous.isSome = true →
       ¬(s.added.1 = name ∧ name ≠ DUMMY_SYMBOL) →
       ((Structure.allocate_table h a = Option.none →
           Structure.get h a name = Option.none) ∧
        (∀ h1, Structure.allocate_table h a = some h1 →
           ∃ s1 t1, h1.getS a = some s1 ∧ s1.table = some t1 ∧
             Structure.get h a name =
               some (h1, (alGet ((h1.getT t1).getD []) name).getD MapEntry.not_found)))) := by
  refine ⟨?_, ?_, ?_, ?_⟩
  · intro ht hp
    simp [Structure.get, hs, Structure.has_table, ht, hp]
  · intro ht hps hn hnd
    obtain ⟨p, hp⟩ := Option.isSome_iff_exists.mp hps
    simp [Structure.get, hs, Structure.has_table, Structure.is_adding_map, ht, hp, hn, hnd]
  · intro t ht
    simp [Structure.get, hs, Structure.has_table, ht]
  · intro ht hps hneg
    obtain ⟨p, hp⟩ := Option.isSome_iff_exists.mp hps
    have hcond : (s.is_adding_map && decide (s.added.1 = name)) = false := by
      by_cases h1 : s.added.1 = name
      · have h2 : name = DUMMY_SYMBOL := by
          by_contra h3
          exact hneg ⟨h1, h3⟩
        simp [Structure.is_adding_map, h1, h2]
      · simp [h1]
    constructor
    · intro halloc
      simp [Structure.get, hs, Structure.has_table, ht, hp, hcond, halloc]
    · intro h1 halloc
      obtain ⟨sx, stk6, base6, tbl, hgsx, hwk6, hf6, h1eq⟩ := allocate_table_shape h a h1 halloc
      rw [hs] at hgsx
      injection hgsx with hsx
      subst hsx
      have hg1 : h1.getS a =
          some { s with table := some h.nextT, previous := Option.none } := by
        rw [h1eq]; exact getS_setS_self _ _ _
      refine ⟨_, h.nextT, hg1, rfl, ?_⟩
      simp [Structure.get, hs, Structure.has_table, ht, hp, hcond, halloc, hg1]

theorem c6_get_semantics_witness :
    (c6wS.table = Option.none → c6wS.previous = Option.none →
       Structure.get rootH rootA 5 = some (rootH, MapEntry.not_found)) ∧
    (c6wS.table = Option.none → c6wS.previous.isSome = true → c6wS.added.1 = 5 →
       (5 : Symbol) ≠ DUMMY_SYMBOL →
       Structure.get rootH rootA 5 = some (rootH, c6wS.added.2)) ∧
    (∀ t, c6wS.table = some t →
       Structure.get rootH rootA 5 =
         some (rootH, (alGet ((rootH.getT t).getD []) 5).getD MapEntry.not_found)) ∧
    (c6wS.table = Option.none → c6wS.previous.isSome = true →
       ¬(c6wS.added.1 = 5 ∧ (5 : Symbol) ≠ DUMMY_SYMBOL) →
       ((Structure.allocate_table rootH rootA = Option.none →
           Structure.get rootH rootA 5 = Option.none) ∧
        (∀ h1, Structure.allocate_table rootH rootA = some h1 →
           ∃ s1 t1, h1.getS rootA = some s1 ∧ s1.table = some t1 ∧
             Structure.get rootH rootA 5 =
               some (h1, (alGet ((h1.getT t1).getD []) 5).getD MapEntry.not_found)))) :=
  c6_get_semantics rootH rootA 5 c6wS (by decide)

/-! ### Walk and fold lemmas for the round-trip theorem (claim C9) -/

theorem allocWalk_fuel_mono (h : Heap) (f f' : Nat) (c : Option Nat) (acc : List Nat)
    (r : List Nat × TargetTable) (hle : f ≤ f') (hw : allocWalk h f c acc = some r) :
    allocWalk h f' c acc = some r := by
  induction f generalizing f' c acc with
  | zero =>
    cases c with
    | none => cases f' <;> simpa [allocWalk] using hw
    | some cur => simp [allocWalk] at hw
  | succ f ih =>
    cases c with
    | none => cases f' <;> simpa [allocWalk] using hw
    | some cur =>
      obtain ⟨f2, rfl⟩ : ∃ f2, f' = f2 + 1 := ⟨f' - 1, by omega⟩
      simp only [allocWalk] at hw ⊢
      cases hgs : h.getS cur with
      | none => rw [hgs] at hw; simp at hw
      | some cs =>
        simp only [hgs] at hw ⊢
        cases hct : cs.table with
        | some t => simp only [hct] at hw ⊢; exact hw
        | none =>
          simp only [hct] at hw ⊢
          exact ih f2 _ _ (by omega) hw

theorem allocWalk_acc (h : Heap) (f : Nat) (c : Option Nat) (pre acc : List Nat) :
    allocWalk h f c (pre ++ acc) =
      (allocWalk h f c acc).map (fun r => (pre ++ r.1, r.2)) := by
  induction f generalizing c acc with
  | zero => cases c <;> simp [allocWalk]
  | succ f ih =>
    cases c with
    | none => simp [allocWalk]
    | some cur =>
      simp only [allocWalk]
      cases hgs : h.getS cur with
      | none => simp
      | some cs =>
        simp only
        cases hct : cs.table with
        | some t => simp
        | none =>
          simp only
          by_cases had : cs.is_adding_map = true
          · rw [if_pos had, if_pos had, List.append_assoc]
            exact ih cs.previous (acc ++ [cur])
          · rw [if_neg had, if_neg had]
            exact ih cs.previous acc

theorem allocWalk_agree (h h2 : Heap) (hwf : h.wf)
    (hA : ∀ b, b < h.nextS → walkView (h2.getS b) = walkView (h.getS b))
    (hT : ∀ t, t < h.nextT → h2.getT t = h.getT t) :
    ∀ (f : Nat) (c : Option Nat) (acc : List Nat),
      (∀ ca, c = some ca → ca < h.nextS) →
      allocWalk h2 f c acc = allocWalk h f c acc := by
  intro f
  induction f with
  | zero => intro c acc _; cases c <;> simp [allocWalk]
  | succ f ih =>
    intro c acc hc
    cases c with
    | none => simp [allocWalk]
    | some cur =>
      have hcur : cur < h.nextS := hc cur rfl
      have hv := hA cur hcur
      simp only [allocWalk]
      cases hgs : h.getS cur with
      | none =>
        have hg2 : h2.getS cur = Option.none := by
          rw [hgs] at hv
          cases hg' : h2.getS cur with
          | none => rfl
          | some cs' => rw [hg'] at hv; simp [walkView] at hv
        rw [hg2]
      | some cs =>
        rw [hgs] at hv
        cases hg2 : h2.getS cur with
        | none => rw [hg2] at hv; simp [walkView] at hv
        | some cs' =>
          rw [hg2] at hv
          simp only [walkView, Option.some.injEq] at hv
          obtain ⟨hvt, hvp, hva⟩ : cs'.table = cs.table ∧ cs'.previous = cs.previous ∧
              cs'.added = cs.added := by
            refine ⟨congrArg (fun q => q.1) hv, ?_, ?_⟩
            · have := congrArg (fun q => q.2.1) hv
              simpa using this
            · have := congrArg (fun q => q.2.2) hv
              simpa using this
          simp only
          rw [hvt]
          cases hct : cs.table with
          | some t =>
            have htlt : t < h.nextT := getS_table_lt_nextT h cur cs t hwf hgs hct
            simp only [hT t htlt]
          | none =>
            have hiam : cs'.is_adding_map = cs.is_adding_map := by
              simp [Structure.is_adding_map, hva]
            simp only [hiam, hvp]
            exact ih cs.previous _
              (fun ca hca => getS_previous_lt_nextS h cur cs ca hwf hgs hca)

theorem allocWalk_stack_bound (h : Heap) (hwf : h.wf) :
    ∀ (f : Nat) (c : Option Nat) (acc : List Nat) (st : List Nat) (base : TargetTable),
      (∀ ca, c = some ca → ca < h.nextS) →
      allocWalk h f c acc = some (st, base) →
      ∀ x ∈ st, x ∈ acc ∨ x < h.nextS := by
  intro f
  induction f with
  | zero =>
    intro c acc st base hc hw
    cases c with
    | none =>
      simp only [allocWalk, Option.some.injEq] at hw
      intro x hx
      left
      rw [show acc = st from congrArg Prod.fst hw]
      exact hx
    | some cur => simp [allocWalk] at hw
  | succ f ih =>
    intro c acc st base hc hw
    cases c with
    | none =>
      simp only [allocWalk, Option.some.injEq] at hw
      intro x hx
      left
      rw [show acc = st from congrArg Prod.fst hw]
      exact hx
    | some cur =>
      have hcur : cur < h.nextS := hc cur rfl
      simp only [allocWalk] at hw
      cases hgs : h.getS cur with
      | none => rw [hgs] at hw; simp at hw
      | some cs =>
        simp only [hgs] at hw
        cases hct : cs.table with
        | some t =>
          simp only [hct, Option.some.injEq] at hw
          intro x hx
          left
          rw [show acc = st from congrArg Prod.fst hw]
          exact hx
        | none =>
          simp only [hct] at hw
          have hrec := ih cs.previous _ st base
            (fun ca hca => getS_previous_lt_nextS h cur cs ca hwf hgs hca) hw
          intro x hx
          rcases hrec x hx with hmem | hlt
          · by_cases had : cs.is_adding_map = true
            · rw [if_pos had] at hmem
              rcases List.mem_append.mp hmem with hm | hm
              · exact Or.inl hm
              · right
                have : x = cur := by simpa using hm
                omega
            · rw [if_neg had] at hmem
              exact Or.inl hmem
          · exact Or.inr hlt

theorem foldInserts_agree (h h2 : Heap)
    (hA : ∀ b, b < h.nextS → walkView (h2.getS b) = walkView (h.getS b)) :
    ∀ (stack : List Nat) (t : TargetTable),
      (∀ b ∈ stack, b < h.nextS) →
      foldInserts h2 stack t = foldInserts h stack t := by
  intro stack
  induction stack with
  | nil => intro t _; rfl
  | cons b rest ih =>
    intro t hb
    have hv := hA b (hb b (by simp))
    simp only [foldInserts]
    cases hgs : h.getS b with
    | none =>
      have hg2 : h2.getS b = Option.none := by
        rw [hgs] at hv
        cases hg' : h2.getS b with
        | none => rfl
        | some cs' => rw [hg'] at hv; simp [walkView] at hv
      simp only [hg2]
    | some sb =>
      rw [hgs] at hv
      cases hg2 : h2.getS b with
      | none => rw [hg2] at hv; simp [walkView] at hv
      | some sb' =>
        rw [hg2] at hv
        simp only [walkView, Option.some.injEq] at hv
        have hva : sb'.added = sb.added := by
          have := congrArg (fun q => q.2.2) hv
          simpa using this
        simp only [hva]
        exact ih _ (fun x hx => hb x (by simp [hx]))

theorem alGet_upd_none {κ α : Type} [DecidableEq κ] (l : List (κ × α)) (k k0 : κ) (v : α)
    (h : alGet (alUpd l k v) k0 = Option.none) : alGet l k0 = Option.none ∧ k ≠ k0 := by
  by_cases hk : k = k0
  · subst hk
    rw [alGet_upd_self] at h
    cases h
  · rw [alGet_upd_ne _ _ _ _ hk] at h
    exact ⟨h, hk⟩

theorem foldInserts_fresh (h : Heap) (name : Symbol) :
    ∀ (l : List Nat) (t r : TargetTable),
      foldInserts h l t = some r → alGet r name = Option.none →
      (∀ b ∈ l, ∀ sb, h.getS b = some sb → sb.added.1 ≠ name) ∧
      alGet t name = Option.none := by
  intro l
  induction l with
  | nil =>
    intro t r hf hr
    simp only [foldInserts, Option.some.injEq] at hf
    subst hf
    exact ⟨by simp, hr⟩
  | cons b rest ih =>
    intro t r hf hr
    simp only [foldInserts] at hf
    cases hgs : h.getS b with
    | none => rw [hgs] at hf; simp at hf
    | some sb =>
      simp only [hgs] at hf
      obtain ⟨hrest, hupd⟩ := ih _ r hf hr
      obtain ⟨ht, hne⟩ := alGet_upd_none _ _ _ _ hupd
      refine ⟨?_, ht⟩
      intro x hx sx hgx
      rcases List.mem_cons.mp hx with rfl | hx'
      · rw [hgs] at hgx
        injection hgx with he
        rw [← he]
        exact hne
      · exact hrest x hx' sx hgx

theorem foldInserts_ex (h : Heap) :
    ∀ (l : List Nat) (t r : TargetTable), foldInserts h l t = some r →
      ∀ t', ∃ r', foldInserts h l t' = some r' := by
  intro l
  induction l with
  | nil => intro t r _ t'; exact ⟨t', rfl⟩
  | cons b rest ih =>
    intro t r hf t'
    simp only [foldInserts] at hf ⊢
    cases hgs : h.getS b with
    | none => rw [hgs] at hf; simp at hf
    | some sb =>
      simp only [hgs] at hf ⊢
      exact ih _ r hf _

theorem foldInserts_get_ne (h : Heap) (name : Symbol) :
    ∀ (l : List Nat) (t r : TargetTable),
      (∀ b ∈ l, ∀ sb, h.getS b = some sb → sb.added.1 ≠ name) →
      foldInserts h l t = some r → alGet r name = alGet t name := by
  intro l
  induction l with
  | nil =>
    intro t r _ hf
    simp only [foldInserts, Option.some.injEq] at hf
    subst hf
    rfl
  | cons b rest ih =>
    intro t r hne hf
    simp only [foldInserts] at hf
    cases hgs : h.getS b with
    | none => rw [hgs] at hf; simp at hf
    | some sb =>
      simp only [hgs] at hf
      have hbne : sb.added.1 ≠ name := hne b (by simp) sb hgs
      have := ih _ r (fun x hx sx hgx => hne x (by simp [hx]) sx hgx) hf
      rw [this, alGet_upd_ne _ _ _ _ hbne]

theorem foldInserts_del_comm (h : Heap) (name : Symbol) :
    ∀ (l : List Nat) (t r : TargetTable),
      (∀ b ∈ l, ∀ sb, h.getS b = some sb → sb.added.1 ≠ name) →
      foldInserts h l t = some r →
      foldInserts h l (alDel t name) = some (alDel r name) := by
  intro l
  induction l with
  | nil =>
    intro t r _ hf
    simp only [foldInserts, Option.some.injEq] at hf
    subst hf
    rfl
  | cons b rest ih =>
    intro t r hne hf
    simp only [foldInserts] at hf ⊢
    cases hgs : h.getS b with
    | none => rw [hgs] at hf; simp at hf
    | some sb =>
      simp only [hgs] at hf ⊢
      have hbne : sb.added.1 ≠ name := hne b (by simp) sb hgs
      rw [← alDel_upd_comm _ _ _ _ (Ne.symm hbne)]
      exact ih _ r (fun x hx sx hgx => hne x (by simp [hx]) sx hgx) hf

/-! ### Well-formedness transport through the heap-building operations -/

theorem wf_setS (h : Heap) (a : Nat) (s : Structure) (hwf : h.wf)
    (ha : a < h.nextS) (ht : ∀ t, s.table = some t → t < h.nextT)
    (hp : ∀ q, s.previous = some q → q < h.nextS) : (h.setS a s).wf := by
  constructor
  · intro p hpm
    rcases mem_alUpd h.structs a s p hpm with rfl | hold
    · exact ⟨ha, ht, hp⟩
    · exact hwf.1 p hold
  · exact hwf.2

theorem wf_setT (h : Heap) (t : Nat) (tbl : TargetTable) (hwf : h.wf)
    (ht : t < h.nextT) : (h.setT t tbl).wf := by
  constructor
  · exact hwf.1
  · intro p hpm
    rcases mem_alUpd h.tables t tbl p hpm with rfl | hold
    · exact ht
    · exact hwf.2 p hold

theorem wf_ctor (h : Heap) (a : Nat) (u : Bool) (s : Structure) (h' : Heap) (a' : Nat)
    (hwf : h.wf) (hs : h.getS a = some s)
    (hc : Structure.ctor h a u = some (h', a')) : h'.wf := by
  have hmain : Structure.ctor h a u =
      some ((h.allocS (derivedRec a s u)).1.setS h.nextS
        { derivedRec a s u with
            calculated_size := slotsSize (h.allocS (derivedRec a s u)).1 (derivedRec a s u) },
        h.nextS) := by
    unfold Structure.ctor derivedRec
    rw [hs]
    rfl
  rw [hmain] at hc
  injection hc with hp
  injection hp with hh ha'
  subst hh
  have ha : a < h.nextS := getS_lt_nextS h a s hwf hs
  have htbl : ∀ t, (if u && s.is_unique then s.table else Option.none) = some t →
      t < h.nextT := by
    intro t htEq
    by_cases hui : (u && s.is_unique) = true
    · rw [if_pos hui] at htEq
      exact getS_table_lt_nextT h a s t hwf hs htEq
    · rw [if_neg hui] at htEq
      cases htEq
  constructor
  · intro p hpm
    rcases mem_alUpd _ _ _ p hpm with rfl | hold
    · refine ⟨Nat.lt_succ_self _, fun t htEq => htbl t htEq, ?_⟩
      intro q hq
      have hqa : some a = some q := hq
      injection hqa with hqa'
      rw [← hqa']
      exact Nat.lt_succ_of_lt ha
    · rcases List.mem_cons.mp hold with rfl | holdd
      · refine ⟨Nat.lt_succ_self _, fun t htEq => htbl t htEq, ?_⟩
        intro q hq
        have hqa : some a = some q := hq
        injection hqa with hqa'
        rw [← hqa']
        exact Nat.lt_succ_of_lt ha
      · obtain ⟨h1b, h2b, h3b⟩ := hwf.1 p holdd
        exact ⟨Nat.lt_succ_of_lt h1b, h2b, fun q hq => Nat.lt_succ_of_lt (h3b q hq)⟩
  · intro p hpm
    exact hwf.2 p hpm

theorem wf_allocate_table (h : Heap) (a : Nat) (h2 : Heap) (hwf : h.wf)
    (ha : Structure.allocate_table h a = some h2) : h2.wf := by
  obtain ⟨s, stack, base, tbl, hgs, hwk, hf, h2eq⟩ := allocate_table_shape h a h2 ha
  subst h2eq
  constructor
  · intro p hpm
    rcases mem_alUpd _ _ _ p hpm with rfl | hold
    · refine ⟨getS_lt_nextS h a s hwf hgs, ?_, ?_⟩
      · intro t htEq
        have hte : some h.nextT = some t := htEq
        injection hte with hte'
        rw [← hte']
        exact Nat.lt_succ_self _
      · intro q hq
        cases hq
    · obtain ⟨h1b, h2b, h3b⟩ := hwf.1 p hold
      exact ⟨h1b, fun t ht => Nat.lt_succ_of_lt (h2b t ht), h3b⟩
  · intro p hpm
    rcases List.mem_cons.mp hpm with rfl | hold
    · exact Nat.lt_succ_self _
    · exact Nat.lt_succ_of_lt (hwf.2 p hold)

/-! ### matView characterisations and the generic delete lemma -/

/-- slots_size through a materialised table. -/
theorem slotsSize_eq (h : Heap) (s : Structure) (t : Nat) (tbl : TargetTable)
    (hst : s.table = some t) (hgt : h.getT t = some tbl) :
    slotsSize h s = tbl.length + s.deleted.size := by
  unfold slotsSize
  simp only [hst, hgt, Option.getD_some]

/-- A structure with a materialised table: its view is the table contents. -/
theorem matView_table (h : Heap) (a : Nat) (s : Structure) (t : Nat)
    (hs : h.getS a = some s) (hst : s.table = some t) :
    matView h a = some ((h.getT t).getD []) := by
  unfold matView
  simp only [allocWalk, hs, hst]
  rfl

/-- A table-less structure: its view decomposes into the walk from its
previous link followed by the delta replay (the shape allocate_table runs). -/
theorem matView_step_none (h : Heap) (a : Nat) (s : Structure) (mt : TargetTable)
    (hs : h.getS a = some s) (hst : s.table = Option.none)
    (hm : matView h a = some mt) :
    ∃ stack base,
      allocWalk h h.nextS s.previous (if s.is_adding_map then [a] else [])
        = some (stack, base) ∧
      foldInserts h stack base = some mt := by
  unfold matView at hm
  simp only [allocWalk, hs, hst, List.nil_append] at hm
  cases hw : allocWalk h h.nextS s.previous (if s.is_adding_map then [a] else []) with
  | none =>
    simp only [hw] at hm
    exact Option.noConfusion hm
  | some sb =>
    obtain ⟨stack, base⟩ := sb
    simp only [hw] at hm
    exact ⟨stack, base, rfl, hm⟩

/-- delete_property_transition on any structure whose materialised view holds
the name: it always succeeds, returns the freshly derived unique successor at
the next address, and the new slots_size is one below the view's length
(whether the successor inherits the table pointer or materialises a fresh
clone first). -/
theorem delete_slots (h : Heap) (aX : Nat) (mS : Structure) (mtM : TargetTable)
    (name : Symbol)
    (hwf : h.wf) (hgm : h.getS aX = some mS)
    (hmdz : mS.deleted.size = 0)
    (hmatM : matView h aX = some mtM)
    (hmem : (alGet mtM name).isSome) :
    ∃ h2 s2, delete_property_transition h aX name = some (h2, h.nextS) ∧
      h2.getS h.nextS = some s2 ∧ s2.is_unique = true ∧
      slotsSize h2 s2 + 1 = mtM.length := by
  have haX : aX < h.nextS := getS_lt_nextS h aX mS hwf hgm
  obtain ⟨hD, hctorD, hDnS, hDnT, hDtab, hDframe, sU, hgetsU, hsUtrans, hsUtable,
    hsUdel, hsUadd, hsUprev, hsUproto, hsUtc, hsUcalc⟩ := ctor_result h aX true mS hgm
  have hUuniq : sU.is_unique = true := by
    rw [Structure.is_unique, hsUtrans]
    rfl
  have hUdz : sU.deleted.size = 0 := by rw [hsUdel]; exact hmdz
  have hDgetT : ∀ t, hD.getT t = h.getT t := by
    intro t
    show alGet hD.tables t = alGet h.tables t
    rw [hDtab]
  obtain ⟨it, hit⟩ := Option.isSome_iff_exists.mp hmem
  cases hsut : sU.table with
  | some t =>
    have hmst : mS.table = some t := by
      rw [hsUtable] at hsut
      by_cases hui : (true && mS.is_unique) = true
      · rw [if_pos hui] at hsut
        exact hsut
      · rw [if_neg hui] at hsut
        cases hsut
    have hmtM : (h.getT t).getD [] = mtM := by
      have hmv := matView_table h aX mS t hgm hmst
      rw [hmatM] at hmv
      injection hmv with he
      exact he.symm
    have hTD : (hD.getT t).getD [] = mtM := by rw [hDgetT t]; exact hmtM
    have hdelEq : Structure.del hD h.nextS name =
        some ((hD.setT t (alDel mtM name)).setS h.nextS
          { sU with deleted := sU.deleted.push it.offset }) := by
      unfold Structure.del
      simp only [hgetsU, hsut, hTD, hit]
    have hht : sU.has_table = true := by
      show sU.table.isSome = true
      rw [hsut]
      rfl
    have hdelete : delete_property_transition h aX name =
        some (((hD.setT t (alDel mtM name)).setS h.nextS
          { sU with deleted := sU.deleted.push it.offset }), h.nextS) := by
      unfold delete_property_transition Structure.new_unique
      simp only [hctorD, hgetsU]
      simp only [hht, eq_self_iff_true, if_true]
      simp only [hdelEq]
    refine ⟨_, { sU with deleted := sU.deleted.push it.offset }, hdelete,
      getS_setS_self _ _ _, hUuniq, ?_⟩
    have hgt2 : ((hD.setT t (alDel mtM name)).setS h.nextS
        { sU with deleted := sU.deleted.push it.offset }).getT t
        = some (alDel mtM name) := by
      rw [getT_setS]
      exact getT_setT_self _ _ _
    have hz : (sU.deleted.push it.offset).size = 0 := by
      simp [DeletedEntryHolder.push, hUdz]
    have hFt : ({ sU with deleted := sU.deleted.push it.offset } : Structure).table
        = some t := hsut
    rw [slotsSize_eq _ _ t (alDel mtM name) hFt hgt2]
    show (alDel mtM name).length + (sU.deleted.push it.offset).size + 1 = mtM.length
    rw [hz, Nat.add_zero]
    exact alDel_length_of_mem mtM name hmem
  | none =>
    have hUiam : sU.is_adding_map = false := by
      simp [Structure.is_adding_map, hsUadd]
    have hA : ∀ b, b < h.nextS → walkView (hD.getS b) = walkView (h.getS b) := by
      intro b hb
      rw [hDframe b (by omega)]
    unfold matView at hmatM
    cases hwk : allocWalk h (h.nextS + 1) (some aX) [] with
    | none =>
      simp only [hwk] at hmatM
      exact Option.noConfusion hmatM
    | some sb =>
      obtain ⟨stM, baseM⟩ := sb
      simp only [hwk] at hmatM
      have hstb : ∀ x ∈ stM, x < h.nextS := by
        intro x hx
        rcases allocWalk_stack_bound h hwf (h.nextS + 1) (some aX) [] stM baseM
            (by intro ca hca; cases hca; exact haX) hwk x hx with hmem' | hlt
        · simp at hmem'
        · exact hlt
      have hagree := allocWalk_agree h hD hwf hA (fun t _ => hDgetT t)
        (hD.nextS + 1) (some aX) [] (by intro ca hca; cases hca; exact haX)
      have hfm : allocWalk h (hD.nextS + 1) (some aX) [] = some (stM, baseM) :=
        allocWalk_fuel_mono h (h.nextS + 1) (hD.nextS + 1) (some aX) [] _ (by omega) hwk
      have hwalkU : allocWalk hD (hD.nextS + 1) sU.previous [] = some (stM, baseM) := by
        rw [hsUprev, hagree]
        exact hfm
      have hfoldU : foldInserts hD stM baseM = some mtM := by
        rw [foldInserts_agree h hD hA stM baseM hstb]
        exact hmatM
      have hallocU : Structure.allocate_table hD h.nextS =
          some ((hD.allocT mtM).1.setS h.nextS
            { sU with table := some hD.nextT, previous := Option.none }) := by
        unfold Structure.allocate_table
        simp only [hgetsU]
        simp only [hUiam, Bool.false_eq_true, if_false]
        simp only [hwalkU]
        simp only [hfoldU]
        rfl
      have hgetE : ((hD.allocT mtM).1.setS h.nextS
          { sU with table := some hD.nextT, previous := Option.none }).getS h.nextS
          = some { sU with table := some hD.nextT, previous := Option.none } :=
        getS_setS_self _ _ _
      have hgetTE : ((hD.allocT mtM).1.setS h.nextS
          { sU with table := some hD.nextT, previous := Option.none }).getT hD.nextT
          = some mtM := by
        rw [getT_setS]
        exact getT_allocT_self _ _
      have hdelE : Structure.del ((hD.allocT mtM).1.setS h.nextS
          { sU with table := some hD.nextT, previous := Option.none }) h.nextS name =
          some ((((hD.allocT mtM).1.setS h.nextS
              { sU with table := some hD.nextT, previous := Option.none }).setT hD.nextT
                (alDel mtM name)).setS h.nextS
            { sU with
                table := some hD.nextT
                previous := Option.none
                deleted := sU.deleted.push it.offset }) := by
        unfold Structure.del
        simp only [hgetE, hgetTE, Option.getD_some, hit]
      have hdelete : delete_property_transition h aX name =
          some (((((hD.allocT mtM).1.setS h.nextS
              { sU with table := some hD.nextT, previous := Option.none }).setT hD.nextT
                (alDel mtM name)).setS h.nextS
            { sU with
                table := some hD.nextT
                previous := Option.none
                deleted := sU.deleted.push it.offset }), h.nextS) := by
        unfold delete_property_transition Structure.new_unique
        simp only [hctorD, hgetsU]
        simp only [Structure.has_table, hsut, Option.isSome_none, Bool.false_eq_true,
          if_false]
        simp only [hallocU]
        simp only [hdelE]
      refine ⟨_, ({ sU with
          table := some hD.nextT
          previous := Option.none
          deleted := sU.deleted.push it.offset }), hdelete, getS_setS_self _ _ _,
        hUuniq, ?_⟩
      have hgt2 : (((((hD.allocT mtM).1.setS h.nextS
          { sU with table := some hD.nextT, previous := Option.none }).setT hD.nextT
            (alDel mtM name)).setS h.nextS
          { sU with
              table := some hD.nextT
              previous := Option.none
              deleted := sU.deleted.push it.offset })).getT hD.nextT
          = some (alDel mtM name) := by
        rw [getT_setS]
        exact getT_setT_self _ _ _
      have hz : (sU.deleted.push it.offset).size = 0 := by
        simp [DeletedEntryHolder.push, hUdz]
      rw [slotsSize_eq _ _ hD.nextT (alDel mtM name) rfl hgt2]
      show (alDel mtM name).length + (sU.deleted.push it.offset).size + 1 = mtM.length
      rw [hz, Nat.add_zero]
      exact alDel_length_of_mem mtM name hmem

/-- Claim C9 (amended): adding a fresh property and deleting it on the
returned structure preserves slots_size for EVERY structure — unique or
shared, cache hit or miss, within or beyond the transit_count cap — whose
cached slots_size agrees with its materialised view (matView): the
consistency condition forced by the counterexample, failing exactly on
chains that recorded the same symbol under two attribute words.  Freshness
is the absence of the (non-sentinel) name from the view; on a cache hit the
cached successor is additionally required to be a coherent successor of
self (same consistency condition on it: its view holds the name and is one
longer), which is how the transition store is only ever populated. -/
theorem c9_add_delete_round_trip (h : Heap) (a : Nat) (name : Symbol) (attrs : AttrSafe)
    (s : Structure) (mt : TargetTable)
    (hwf : h.wf) (hs : h.getS a = some s)
    (hdz : s.deleted.size = 0)
    (hname : name ≠ DUMMY_SYMBOL)
    (hmat : matView h a = some mt)
    (hsz : mt.length = slotsSize h s)
    (hfresh : alGet mt name = Option.none)
    (hcache : ∀ mA, s.transitions.find name attrs = some mA →
       ∃ m mtM, h.getS mA = some m ∧ m.deleted.size = 0 ∧
         matView h mA = some mtM ∧ (alGet mtM name).isSome = true ∧
         mtM.length = slotsSize h s + 1) :
    ∃ h1 a1 off, add_property_transition h a name attrs = some (h1, a1, off) ∧
      ∃ h2 a2 s2, delete_property_transition h1 a1 name = some (h2, a2) ∧
        h2.getS a2 = some s2 ∧ slotsSize h2 s2 = slotsSize h s := by
  have ha : a < h.nextS := getS_lt_nextS h a s hwf hs
  have hemps : (!s.deleted.empty) = false := by
    simp [DeletedEntryHolder.empty, hdz]
  by_cases hu : s.is_unique = true
  · -- the unique path: addUnique on self
    have haddU : add_property_transition h a name attrs = addUnique h a name attrs := by
      unfold add_property_transition
      simp only [hs]
      rw [if_pos hu]
    have hmem4 : (alGet (alUpd mt name { offset := slotsSize h s, attrs := attrs })
        name).isSome = true := by
      rw [alGet_upd_self]
      rfl
    have hlen4 : (alUpd mt name { offset := slotsSize h s, attrs := attrs }).length
        = slotsSize h s + 1 := by
      rw [alUpd_length_of_not_mem mt name _ hfresh, hsz]
    cases hst : s.table with
    | some t =>
      have hmtEq : (h.getT t).getD [] = mt := by
        have hmv := matView_table h a s t hs hst
        rw [hmat] at hmv
        injection hmv with he
        exact he.symm
      have hht : s.has_table = true := by
        show s.table.isSome = true
        rw [hst]
        rfl
      by_cases hflag : s.transitions.is_enabled_unique_transition = true
      · -- fork: the unique successor shares the same table pointer
        obtain ⟨hD1, hctor1, hD1nS, hD1nT, hD1tab, hD1frame, M, hgetM, hMtrans, hMtable,
          hMdel, hMadd, hMprev, hMproto, hMtc, hMcalc⟩ := ctor_result h a true s hs
        have hMt : M.table = some t := by
          rw [hMtable, hu, hst]
          rfl
        have hMdz : M.deleted.size = 0 := by
          rw [hMdel]
          exact hdz
        have hempM : (!M.deleted.empty) = false := by
          simp [DeletedEntryHolder.empty, hMdel, hdz]
        have hga1 : hD1.getS a = some s := by
          rw [hD1frame a (by omega)]
          exact hs
        have hDT1 : ∀ u2, hD1.getT u2 = h.getT u2 := by
          intro u2
          show alGet hD1.tables u2 = alGet h.tables u2
          rw [hD1tab]
        have hTBL : (hD1.getT t).getD [] = mt := by
          rw [hDT1 t]
          exact hmtEq
        have hss : slotsSize hD1 s = slotsSize h s := by
          unfold slotsSize
          cases hts : s.table with
          | none => rfl
          | some t2 => simp only [hDT1 t2]
        have haddEq : add_property_transition h a name attrs =
            some (hD1.setT t (alUpd mt name { offset := slotsSize h s, attrs := attrs }),
              h.nextS, slotsSize h s) := by
          rw [haddU]
          unfold addUnique
          simp only [hs, hht, hflag, eq_self_iff_true, if_true, Structure.new_unique,
            hctor1, hgetM, hempM, Bool.false_eq_true, if_false, hga1, hMt, hTBL, hss]
        have hwfD1 : hD1.wf := wf_ctor h a true s hD1 h.nextS hwf hs hctor1
        have htlt : t < hD1.nextT := by
          rw [hD1nT]
          exact getS_table_lt_nextT h a s t hwf hs hst
        have hwf4 : (hD1.setT t (alUpd mt name
            { offset := slotsSize h s, attrs := attrs })).wf :=
          wf_setT hD1 t _ hwfD1 htlt
        have hg4 : (hD1.setT t (alUpd mt name
            { offset := slotsSize h s, attrs := attrs })).getS h.nextS = some M := by
          rw [getS_setT]
          exact hgetM
        have hmat4 : matView (hD1.setT t (alUpd mt name
            { offset := slotsSize h s, attrs := attrs })) h.nextS
            = some (alUpd mt name { offset := slotsSize h s, attrs := attrs }) := by
          rw [matView_table _ h.nextS M t hg4 hMt, getT_setT_self]
          rfl
        obtain ⟨h2, s2, hdel, hg2, hu2, hsl⟩ :=
          delete_slots _ h.nextS M _ name hwf4 hg4 hMdz hmat4 hmem4
        exact ⟨_, h.nextS, slotsSize h s, haddEq, h2, _, s2, hdel, hg2, by omega⟩
      · -- in place: insert through the present table of self
        have hflagF : s.transitions.is_enabled_unique_transition = false := by
          cases hq : s.transitions.is_enabled_unique_transition
          · rfl
          · exact absurd hq hflag
        have haddEq : add_property_transition h a name attrs =
            some (h.setT t (alUpd mt name { offset := slotsSize h s, attrs := attrs }),
              a, slotsSize h s) := by
          rw [haddU]
          unfold addUnique
          simp only [hs, hht, eq_self_iff_true, if_true, hflagF, hemps,
            Bool.false_eq_true, if_false, hst, hmtEq]
        have hwf4 : (h.setT t (alUpd mt name
            { offset := slotsSize h s, attrs := attrs })).wf :=
          wf_setT h t _ hwf (getS_table_lt_nextT h a s t hwf hs hst)
        have hg4 : (h.setT t (alUpd mt name
            { offset := slotsSize h s, attrs := attrs })).getS a = some s := by
          rw [getS_setT]
          exact hs
        have hmat4 : matView (h.setT t (alUpd mt name
            { offset := slotsSize h s, attrs := attrs })) a
            = some (alUpd mt name { offset := slotsSize h s, attrs := attrs }) := by
          rw [matView_table _ a s t hg4 hst, getT_setT_self]
          rfl
        obtain ⟨h2, s2, hdel, hg2, hu2, hsl⟩ :=
          delete_slots _ a s _ name hwf4 hg4 hdz hmat4 hmem4
        exact ⟨_, a, slotsSize h s, haddEq, h2, _, s2, hdel, hg2, by omega⟩
    | none =>
      -- materialise the table of self first
      obtain ⟨stW, baseW, hwkW, hfW⟩ := matView_step_none h a s mt hs hst hmat
      have hwkW1 : allocWalk h (h.nextS + 1) s.previous
          (if s.is_adding_map then [a] else []) = some (stW, baseW) :=
        allocWalk_fuel_mono h h.nextS (h.nextS + 1) _ _ _ (by omega) hwkW
      have hhtF : s.has_table = false := by
        show s.table.isSome = false
        rw [hst]
        rfl
      have hallocEq : Structure.allocate_table h a =
          some ((h.allocT mt).1.setS a
            { s with table := some h.nextT, previous := Option.none }) := by
        unfold Structure.allocate_table
        simp only [hs]
        simp only [hwkW1]
        simp only [hfW]
        rfl
      have hg1' : ((h.allocT mt).1.setS a
          { s with table := some h.nextT, previous := Option.none }).getS a
          = some { s with table := some h.nextT, previous := Option.none } :=
        getS_setS_self _ _ _
      have hgT1' : ((h.allocT mt).1.setS a
          { s with table := some h.nextT, previous := Option.none }).getT h.nextT
          = some mt := by
        rw [getT_setS]
        exact getT_allocT_self _ _
      have hwf1' : ((h.allocT mt).1.setS a
          { s with table := some h.nextT, previous := Option.none }).wf :=
        wf_allocate_table h a _ hwf hallocEq
      by_cases hflag : s.transitions.is_enabled_unique_transition = true
      · -- fork after materialising: the successor shares the fresh table
        obtain ⟨hD2, hctor2, hD2nS, hD2nT, hD2tab, hD2frame, M, hgetM, hMtrans, hMtable,
          hMdel, hMadd, hMprev, hMproto, hMtc, hMcalc⟩ :=
          ctor_result _ a true { s with table := some h.nextT, previous := Option.none } hg1'
        have hctor2' : Structure.ctor ((h.allocT mt).1.setS a
            { s with table := some h.nextT, previous := Option.none }) a true
            = some (hD2, h.nextS) := hctor2
        have hgetM' : hD2.getS h.nextS = some M := hgetM
        have hsu2 : ({ s with table := some h.nextT, previous := Option.none } :
            Structure).is_unique = true := hu
        have hflag2 : ({ s with table := some h.nextT, previous := Option.none } :
            Structure).transitions.is_enabled_unique_transition = true := hflag
        have hMt : M.table = some h.nextT := by
          rw [hMtable, hsu2]
          rfl
        have hMdz : M.deleted.size = 0 := by
          rw [hMdel]
          exact hdz
        have hempM : (!M.deleted.empty) = false := by
          rw [hMdel]
          exact hemps
        have hga2 : hD2.getS a
            = some { s with table := some h.nextT, previous := Option.none } := by
          rw [hD2frame a (show a ≠ h.nextS by omega)]
          exact hg1'
        have hgt2 : hD2.getT h.nextT = some mt := by
          show alGet hD2.tables h.nextT = some mt
          rw [hD2tab]
          exact hgT1'
        have hss2 : slotsSize hD2 { s with table := some h.nextT, previous := Option.none }
            = slotsSize h s := by
          rw [slotsSize_eq hD2 _ h.nextT mt rfl hgt2]
          show mt.length + s.deleted.size = slotsSize h s
          rw [hdz, Nat.add_zero]
          exact hsz
        have haddEq : add_property_transition h a name attrs =
            some (hD2.setT h.nextT (alUpd mt name
              { offset := slotsSize h s, attrs := attrs }), h.nextS, slotsSize h s) := by
          rw [haddU]
          unfold addUnique
          simp only [hs, hhtF, Bool.false_eq_true, if_false, hallocEq, hg1', hflag2,
            hflag, eq_self_iff_true, if_true, Structure.new_unique, hctor2', hgetM',
            hempM, hga2, hMt, hgt2, Option.getD_some, hss2]
        have hwfD2 : hD2.wf := wf_ctor _ a true _ hD2 _ hwf1' hg1' hctor2
        have hlt2 : h.nextT < hD2.nextT := by
          rw [hD2nT]
          exact Nat.lt_succ_self _
        have hwf4 : (hD2.setT h.nextT (alUpd mt name
            { offset := slotsSize h s, attrs := attrs })).wf :=
          wf_setT hD2 h.nextT _ hwfD2 hlt2
        have hg4 : (hD2.setT h.nextT (alUpd mt name
            { offset := slotsSize h s, attrs := attrs })).getS h.nextS = some M := by
          rw [getS_setT]
          exact hgetM'
        have hmat4 : matView (hD2.setT h.nextT (alUpd mt name
            { offset := slotsSize h s, attrs := attrs })) h.nextS
            = some (alUpd mt name { offset := slotsSize h s, attrs := attrs }) := by
          rw [matView_table _ h.nextS M h.nextT hg4 hMt, getT_setT_self]
          rfl
        obtain ⟨h2, s2, hdel, hg2, hu2, hsl⟩ :=
          delete_slots _ h.nextS M _ name hwf4 hg4 hMdz hmat4 hmem4
        exact ⟨_, h.nextS, slotsSize h s, haddEq, h2, _, s2, hdel, hg2, by omega⟩
      · -- in place after materialising
        have hflagF : s.transitions.is_enabled_unique_transition = false := by
          cases hq : s.transitions.is_enabled_unique_transition
          · rfl
          · exact absurd hq hflag
        have hflagF' : ({ s with table := some h.nextT, previous := Option.none } :
            Structure).transitions.is_enabled_unique_transition = false := hflagF
        have hss1' : slotsSize ((h.allocT mt).1.setS a
            { s with table := some h.nextT, previous := Option.none })
            { s with table := some h.nextT, previous := Option.none }
            = slotsSize h s := by
          rw [slotsSize_eq _ _ h.nextT mt rfl hgT1']
          show mt.length + s.deleted.size = slotsSize h s
          rw [hdz, Nat.add_zero]
          exact hsz
        have haddEq : add_property_transition h a name attrs =
            some ((((h.allocT mt).1.setS a
              { s with table := some h.nextT, previous := Option.none }).setT h.nextT
                (alUpd mt name { offset := slotsSize h s, attrs := attrs })),
              a, slotsSize h s) := by
          rw [haddU]
          unfold addUnique
          simp only [hs, hhtF, Bool.false_eq_true, if_false, hallocEq, hg1', hflagF',
            hflagF, hemps, hss1', hgT1', Option.getD_some]
        have hwf4 : ((((h.allocT mt).1.setS a
            { s with table := some h.nextT, previous := Option.none }).setT h.nextT
              (alUpd mt name { offset := slotsSize h s, attrs := attrs }))).wf :=
          wf_setT _ h.nextT _ hwf1' (Nat.lt_succ_self _)
        have hg4 : ((((h.allocT mt).1.setS a
            { s with table := some h.nextT, previous := Option.none }).setT h.nextT
              (alUpd mt name { offset := slotsSize h s, attrs := attrs }))).getS a
            = some { s with table := some h.nextT, previous := Option.none } := by
          rw [getS_setT]
          exact hg1'
        have hmat4 : matView ((((h.allocT mt).1.setS a
            { s with table := some h.nextT, previous := Option.none }).setT h.nextT
              (alUpd mt name { offset := slotsSize h s, attrs := attrs }))) a
            = some (alUpd mt name { offset := slotsSize h s, attrs := attrs }) := by
          rw [matView_table _ a { s with table := some h.nextT, previous := Option.none }
            h.nextT hg4 rfl, getT_setT_self]
          rfl
        obtain ⟨h2, s2, hdel, hg2, hu2, hsl⟩ :=
          delete_slots _ a { s with table := some h.nextT, previous := Option.none } _
            name hwf4 hg4 hdz hmat4 hmem4
        exact ⟨_, a, slotsSize h s, haddEq, h2, _, s2, hdel, hg2, by omega⟩
  · -- shared
    have hsu : s.is_unique = false := by
      cases hq : s.is_unique
      · rfl
      · exact absurd hq hu
    cases hfind : s.transitions.find name attrs with
    | some mA =>
      -- cache hit: no mutation, delete the coherent cached successor
      obtain ⟨m, mtM, hgm, hmdz, hmatM, hmemM, hlenM⟩ := hcache mA hfind
      have haddEq : add_property_transition h a name attrs =
          some (h, mA, m.added.2.offset) := by
        unfold add_property_transition
        simp only [hs]
        simp only [hsu, Bool.false_eq_true, if_false]
        simp only [hfind]
        simp only [hgm]
      obtain ⟨h2, s2, hdel, hg2, hu2, hsl⟩ :=
        delete_slots h mA m mtM name hwf hgm hmdz hmatM hmemM
      exact ⟨h, mA, m.added.2.offset, haddEq, h2, h.nextS, s2, hdel, hg2, by omega⟩
    | none =>
      by_cases htc : s.transit_count > 32
      · -- escape path: fork a unique successor, materialise and insert there
        obtain ⟨hv1, hctorV, hVnS, hVnT, hVtab, hVframe, mD, hgetmD, hmDtrans, hmDtable,
          hmDdel, hmDadd, hmDprev, hmDproto, hmDtc, hmDcalc⟩ := ctor_result h a true s hs
        have hmDt : mD.table = Option.none := by
          simp [hmDtable, hsu]
        have hmDiam : mD.is_adding_map = false := by
          simp [Structure.is_adding_map, hmDadd]
        have hmDdz : mD.deleted.size = 0 := by
          rw [hmDdel]
          exact hdz
        have hVgetT : ∀ u2, hv1.getT u2 = h.getT u2 := by
          intro u2
          show alGet hv1.tables u2 = alGet h.tables u2
          rw [hVtab]
        have hAv : ∀ b, b < h.nextS → walkView (hv1.getS b) = walkView (h.getS b) := by
          intro b hb
          rw [hVframe b (by omega)]
        have hmat' := hmat
        unfold matView at hmat'
        cases hwkD : allocWalk h (h.nextS + 1) (some a) [] with
        | none =>
          simp only [hwkD] at hmat'
          exact Option.noConfusion hmat'
        | some sb =>
          obtain ⟨stD, baseD⟩ := sb
          simp only [hwkD] at hmat'
          have hstbD : ∀ x ∈ stD, x < h.nextS := by
            intro x hx
            rcases allocWalk_stack_bound h hwf (h.nextS + 1) (some a) [] stD baseD
                (by intro ca hca; cases hca; exact ha) hwkD x hx with hmem' | hlt
            · simp at hmem'
            · exact hlt
          have hagreeD := allocWalk_agree h hv1 hwf hAv (fun t2 _ => hVgetT t2)
            (hv1.nextS + 1) (some a) [] (by intro ca hca; cases hca; exact ha)
          have hfmD : allocWalk h (hv1.nextS + 1) (some a) [] = some (stD, baseD) :=
            allocWalk_fuel_mono h (h.nextS + 1) (hv1.nextS + 1) (some a) [] _
              (by omega) hwkD
          have hwalkD : allocWalk hv1 (hv1.nextS + 1) mD.previous [] = some (stD, baseD) := by
            rw [hmDprev, hagreeD]
            exact hfmD
          have hfoldD : foldInserts hv1 stD baseD = some mt := by
            rw [foldInserts_agree h hv1 hAv stD baseD hstbD]
            exact hmat'
          have hallocD : Structure.allocate_table hv1 h.nextS =
              some ((hv1.allocT mt).1.setS h.nextS
                { mD with table := some hv1.nextT, previous := Option.none }) := by
            unfold Structure.allocate_table
            simp only [hgetmD]
            simp only [hmDiam, Bool.false_eq_true, if_false]
            simp only [hwalkD]
            simp only [hfoldD]
            rfl
          have hgE : ((hv1.allocT mt).1.setS h.nextS
              { mD with table := some hv1.nextT, previous := Option.none }).getS h.nextS
              = some { mD with table := some hv1.nextT, previous := Option.none } :=
            getS_setS_self _ _ _
          have hgtE : ((hv1.allocT mt).1.setS h.nextS
              { mD with table := some hv1.nextT, previous := Option.none }).getT hv1.nextT
              = some mt := by
            rw [getT_setS]
            exact getT_allocT_self _ _
          have hmDht : mD.has_table = false := by
            show mD.table.isSome = false
            rw [hmDt]
            rfl
          have hflagDm : mD.transitions.is_enabled_unique_transition = false := by
            show mD.transitions.unique = false
            rw [hmDtrans]
            rfl
          have hempD2 : (!mD.deleted.empty) = false := by
            rw [hmDdel]
            exact hemps
          have hssE : slotsSize ((hv1.allocT mt).1.setS h.nextS
              { mD with table := some hv1.nextT, previous := Option.none })
              { mD with table := some hv1.nextT, previous := Option.none }
              = slotsSize h s := by
            rw [slotsSize_eq _ _ hv1.nextT mt rfl hgtE]
            show mt.length + mD.deleted.size = slotsSize h s
            rw [hmDdz, Nat.add_zero]
            exact hsz
          have hmem4 : (alGet (alUpd mt name { offset := slotsSize h s, attrs := attrs })
              name).isSome = true := by
            rw [alGet_upd_self]
            rfl
          have hlen4 : (alUpd mt name { offset := slotsSize h s, attrs := attrs }).length
              = slotsSize h s + 1 := by
            rw [alUpd_length_of_not_mem mt name _ hfresh, hsz]
          have haddEq : add_property_transition h a name attrs =
              some ((((hv1.allocT mt).1.setS h.nextS
                { mD with table := some hv1.nextT, previous := Option.none }).setT hv1.nextT
                  (alUpd mt name { offset := slotsSize h s, attrs := attrs })),
                h.nextS, slotsSize h s) := by
            unfold add_property_transition
            simp only [hs]
            simp only [hsu, Bool.false_eq_true, if_false]
            simp only [hfind]
            rw [if_pos htc]
            simp only [Structure.new_unique, hctorV]
            unfold addUnique
            simp only [hgetmD, hmDht, Bool.false_eq_true, if_false, hallocD, hgE,
              hflagDm, hempD2, hssE, hgtE, Option.getD_some]
          have hwfV : hv1.wf := wf_ctor h a true s hv1 h.nextS hwf hs hctorV
          have hwfE : ((hv1.allocT mt).1.setS h.nextS
              { mD with table := some hv1.nextT, previous := Option.none }).wf :=
            wf_allocate_table hv1 h.nextS _ hwfV hallocD
          have hwf4 : (((hv1.allocT mt).1.setS h.nextS
              { mD with table := some hv1.nextT, previous := Option.none }).setT hv1.nextT
                (alUpd mt name { offset := slotsSize h s, attrs := attrs })).wf :=
            wf_setT _ hv1.nextT _ hwfE (by exact Nat.lt_succ_self _)
          have hg4 : (((hv1.allocT mt).1.setS h.nextS
              { mD with table := some hv1.nextT, previous := Option.none }).setT hv1.nextT
                (alUpd mt name { offset := slotsSize h s, attrs := attrs })).getS h.nextS
              = some { mD with table := some hv1.nextT, previous := Option.none } := by
            rw [getS_setT]
            exact hgE
          have hmat4 : matView (((hv1.allocT mt).1.setS h.nextS
              { mD with table := some hv1.nextT, previous := Option.none }).setT hv1.nextT
                (alUpd mt name { offset := slotsSize h s, attrs := attrs })) h.nextS
              = some (alUpd mt name { offset := slotsSize h s, attrs := attrs }) := by
            rw [matView_table _ h.nextS
              { mD with table := some hv1.nextT, previous := Option.none }
              hv1.nextT hg4 rfl, getT_setT_self]
            rfl
          have hmDdzE : ({ mD with table := some hv1.nextT, previous := Option.none } :
              Structure).deleted.size = 0 := hmDdz
          obtain ⟨h2, s2, hdel, hg2, hu2, hsl⟩ :=
            delete_slots _ h.nextS
              { mD with table := some hv1.nextT, previous := Option.none } _
              name hwf4 hg4 hmDdzE hmat4 hmem4
          exact ⟨_, h.nextS, slotsSize h s, haddEq, h2, _, s2, hdel, hg2, by omega⟩
      · -- fresh shared transition: derive, cache, then delete the successor
        have hntc : ¬ (s.transit_count > 32) := htc
        obtain ⟨h1, hctor, hnS1, hnT1, htab1, hframe1, m0, hgetm0, hm0trans, hm0table,
          hm0del, hm0add, hm0prev, hm0proto, hm0tc, hm0calc⟩ := ctor_result h a false s hs
        have hga : h1.getS a = some s := by rw [hframe1 a (by omega)]; exact hs
        have hm0t : m0.table = Option.none := by rw [hm0table]; simp
        have hgetT1 : ∀ t, h1.getT t = h.getT t := by
          intro t
          show alGet h1.tables t = alGet h.tables t
          rw [htab1]
        have hss1 : slotsSize h1 s = slotsSize h s := by
          unfold slotsSize
          cases hts : s.table with
          | none => rfl
          | some t => simp only [hgetT1 t]
        have hempm0 : (!m0.deleted.empty) = false := by
          rw [hm0del]
          simp [DeletedEntryHolder.empty, hdz]
        set M3 : Structure :=
          { m0 with added := (name, { offset := slotsSize h1 s, attrs := attrs }),
                    calculated_size := slotsSize h1 s + 1,
                    transit_count := m0.transit_count + 1 } with hM3
        set S2 : Structure :=
          { s with transitions := s.transitions.insert name attrs h.nextS } with hS2
        set HV : Heap := (h1.setS h.nextS M3).setS a S2 with hHV
        have hM3t : M3.table = Option.none := by rw [hM3]; exact hm0t
        have hadd : add_property_transition h a name attrs =
            some (HV, h.nextS, slotsSize h1 s) := by
          unfold add_property_transition
          simp only [hs]
          simp only [hsu, Bool.false_eq_true, if_false]
          simp only [hfind]
          rw [if_neg hntc]
          simp only [Structure.new, hctor]
          simp only [hgetm0, hga]
          simp only [hempm0, Bool.false_eq_true, if_false]
          have hgtx : ∀ x : Nat, x + 1 > x := fun x => by omega
          simp only [slotsSize, hm0t]
          rw [if_pos (hgtx _)]
          rw [hHV, hM3, hS2]
          simp only [hm0t]
          rfl
        have hHVnS : HV.nextS = h.nextS + 1 := by
          rw [hHV]
          show h1.nextS = h.nextS + 1
          exact hnS1
        have hHVtab : HV.tables = h.tables := by
          rw [hHV]
          show h1.tables = h.tables
          exact htab1
        have hgetM3 : HV.getS h.nextS = some M3 := by
          rw [hHV, getS_setS_ne _ _ _ _ (by omega : a ≠ h.nextS)]
          exact getS_setS_self _ _ _
        have hgetHVa : HV.getS a = some S2 := by
          rw [hHV]
          exact getS_setS_self _ _ _
        have hHVframe : ∀ b, b ≠ a → b ≠ h.nextS → HV.getS b = h.getS b := by
          intro b hba hbn
          rw [hHV, getS_setS_ne _ _ _ _ (Ne.symm hba), getS_setS_ne _ _ _ _ (Ne.symm hbn)]
          exact hframe1 b hbn
        have hM3added : M3.added = (name, { offset := slotsSize h1 s, attrs := attrs }) := by
          rw [hM3]
        have hM3iam : M3.is_adding_map = true := by
          simp [Structure.is_adding_map, hM3added, hname]
        have hAHV : ∀ b, b < h.nextS → walkView (HV.getS b) = walkView (h.getS b) := by
          intro b hb
          by_cases hba : b = a
          · subst hba
            rw [hgetHVa, hs]
            show some (S2.table, S2.previous, S2.added) = some (s.table, s.previous, s.added)
            rw [hS2]
          · rw [hHVframe b hba (by omega)]
        have hTHV : ∀ t2, HV.getT t2 = h.getT t2 := by
          intro t2
          show alGet HV.tables t2 = alGet h.tables t2
          rw [hHVtab]
        have hmat' := hmat
        unfold matView at hmat'
        cases hwk : allocWalk h (h.nextS + 1) (some a) [] with
        | none =>
          simp only [hwk] at hmat'
          exact Option.noConfusion hmat'
        | some sb =>
          obtain ⟨stackA, baseA⟩ := sb
          simp only [hwk] at hmat'
          have hstb : ∀ x ∈ stackA, x < h.nextS := by
            intro x hx
            rcases allocWalk_stack_bound h hwf (h.nextS + 1) (some a) [] stackA baseA
                (by intro ca hca; cases hca; exact ha) hwk x hx with hmem | hlt
            · simp at hmem
            · exact hlt
          obtain ⟨hdeltas, hbase⟩ := foldInserts_fresh h name stackA baseA mt hmat' hfresh
          obtain ⟨R, hR⟩ := foldInserts_ex h stackA baseA mt hmat'
            (alUpd baseA name { offset := slotsSize h1 s, attrs := attrs })
          have hgetR : alGet R name = some { offset := slotsSize h1 s, attrs := attrs } := by
            rw [foldInserts_get_ne h name stackA _ R hdeltas hR, alGet_upd_self]
          have hdelR : alDel R name = mt := by
            have hcomm := foldInserts_del_comm h name stackA _ R hdeltas hR
            rw [alDel_upd_cancel _ _ _ hbase] at hcomm
            rw [hmat'] at hcomm
            injection hcomm with he
            exact he.symm
          have hagreeHV := allocWalk_agree h HV hwf hAHV (fun t2 _ => hTHV t2)
            (h.nextS + 1) (some a) [h.nextS] (by intro ca hca; cases hca; exact ha)
          have hwalkHV : allocWalk HV (h.nextS + 1) (some a) [h.nextS]
              = some (h.nextS :: stackA, baseA) := by
            rw [hagreeHV]
            have hacc := allocWalk_acc h (h.nextS + 1) (some a) [h.nextS] []
            simp only [List.append_nil] at hacc
            rw [hacc, hwk]
            rfl
          have hmatHV : matView HV h.nextS = some R := by
            unfold matView
            rw [hHVnS]
            simp only [allocWalk, hgetM3, hm0t]
            rw [if_pos hM3iam]
            simp only [hm0prev, List.nil_append]
            simp only [hwalkHV]
            simp only [foldInserts, hgetM3]
            rw [foldInserts_agree h HV hAHV stackA _ hstb]
            exact hR
          have hwf1 : h1.wf := wf_ctor h a false s h1 h.nextS hwf hs hctor
          have hwfHVp : (h1.setS h.nextS M3).wf := by
            apply wf_setS h1 h.nextS M3 hwf1
            · omega
            · intro t2 ht2
              have ht2' : m0.table = some t2 := ht2
              rw [hm0t] at ht2'
              cases ht2'
            · intro q hq
              have hq' : m0.previous = some q := hq
              rw [hm0prev] at hq'
              injection hq' with hq2
              rw [← hq2]
              omega
          have hwfHV : HV.wf := by
            rw [hHV]
            apply wf_setS (h1.setS h.nextS M3) a S2 hwfHVp
            · show a < h1.nextS
              omega
            · intro t2 ht2
              have ht2' : s.table = some t2 := ht2
              have hb := getS_table_lt_nextT h a s t2 hwf hs ht2'
              show t2 < h1.nextT
              rw [hnT1]
              exact hb
            · intro q hq
              have hq' : s.previous = some q := hq
              have hb := getS_previous_lt_nextS h a s q hwf hs hq'
              show q < h1.nextS
              omega
          have hM3dz : M3.deleted.size = 0 := by
            show m0.deleted.size = 0
            rw [hm0del]
            exact hdz
          have hRmem : (alGet R name).isSome = true := by
            rw [hgetR]
            rfl
          have hRlen : R.length = slotsSize h s + 1 := by
            have hd := alDel_length_of_mem R name hRmem
            rw [hdelR] at hd
            omega
          obtain ⟨h2, s2, hdel, hg2, hu2, hsl⟩ :=
            delete_slots HV h.nextS M3 R name hwfHV hgetM3 hM3dz hmatHV hRmem
          exact ⟨HV, h.nextS, slotsSize h1 s, hadd, h2, HV.nextS, s2, hdel, hg2, by omega⟩

theorem c9_add_delete_round_trip_witness :
    ∃ h1 a1 off, add_property_transition rootH rootA 1 defaultDataAttrs
        = some (h1, a1, off) ∧
      ∃ h2 a2 s2, delete_property_transition h1 a1 1 = some (h2, a2) ∧
        h2.getS a2 = some s2 ∧ slotsSize h2 s2 = slotsSize rootH c6wS :=
  c9_add_delete_round_trip rootH rootA 1 defaultDataAttrs c6wS [] (by decide) (by decide)
    (by decide) (by decide) (by decide) (by decide) (by decide)
    (by
      intro mA hx
      have hn : c6wS.transitions.find 1 defaultDataAttrs = Option.none := by decide
      rw [hn] at hx
      exact Option.noConfusion hx)

end Starlight
